import Mathlib

/-!
Verification development for the cabinet multi-tenant key-value service.

The Rust sources are shallowly embedded:
* `Item`, `Item.asBytes`, `Item.fromBytes` model `src/item.rs` (bincode
  standard configuration: varint length prefix, little-endian).
* `packStr`, `packBytes`, `dataKey`, `countKey`, `sizeKey` model the
  FoundationDB tuple packing used by `src/cabinet.rs` and `src/stats.rs`
  (`Subspace::all().subspace(&tenant)` then the `Prefix`, `EntityType`,
  `StatType` enums of `src/prefix.rs`).
* `KV` with `lookupKV`/`setKV`/`eraseKV`/`clearRangeKV`/`atomicAdd` models
  the per-transaction view of the backing store (keys ordered bytewise,
  `MutationType::Add` little-endian arithmetic).
* `Cabinet.put`/`get`/`delete`/`clear` and `getCount`/`getSize` model
  `src/cabinet.rs` and `src/stats.rs`.
* The connection handler of `src/server.rs` and the protocol parser of
  `cabinet-protocol` are modelled further below.
-/

namespace Cab

abbrev Byte := Fin 256

abbrev Bytes := List Byte

/-- Value of a little-endian byte string (least significant byte first). -/
def natOfLE : Bytes → Nat
  | [] => 0
  | b :: r => b.val + 256 * natOfLE r

/-- `toLE k n` is the `k`-byte little-endian encoding of `n % 256^k`. -/
def toLE : Nat → Nat → Bytes
  | 0, _ => []
  | k + 1, n => ⟨n % 256, by omega⟩ :: toLE k (n / 256)

theorem length_toLE (k n : Nat) : (toLE k n).length = k := by
  induction k generalizing n with
  | zero => simp [toLE]
  | succ k ih => simp [toLE, ih]

theorem natOfLE_toLE (k n : Nat) : natOfLE (toLE k n) = n % 256 ^ k := by
  induction k generalizing n with
  | zero => simp [toLE, natOfLE, Nat.mod_one]
  | succ k ih =>
    have hp : (256 : ℕ) ^ (k + 1) = 256 * 256 ^ k := by ring
    have hmm : n % (256 * 256 ^ k) = n % 256 + 256 * (n / 256 % 256 ^ k) := Nat.mod_mul
    simp only [toLE, natOfLE, ih, hp, hmm]

theorem toLE_natOfLE (l : Bytes) : toLE l.length (natOfLE l) = l := by
  induction l with
  | nil => simp [toLE]
  | cons b r ih =>
    have hb := b.isLt
    simp only [List.length_cons, toLE, natOfLE]
    have h1 : (b.val + 256 * natOfLE r) % 256 = b.val := by omega
    have h2 : (b.val + 256 * natOfLE r) / 256 = natOfLE r := by omega
    rw [h2, ih]
    exact congrArg (· :: r) (Fin.ext h1)

theorem natOfLE_lt (l : Bytes) : natOfLE l < 256 ^ l.length := by
  induction l with
  | nil => simp [natOfLE]
  | cons b r ih =>
    have hb := b.isLt
    simp only [natOfLE, List.length_cons, pow_succ]
    have : 256 ^ r.length * 256 = 256 * 256 ^ r.length := by ring
    rw [this]
    omega

theorem take_append_self (a b : List α) : (a ++ b).take a.length = a := by
  induction a with
  | nil => simp
  | cons x xs ih => simp [ih]

theorem drop_append_self (a b : List α) : (a ++ b).drop a.length = b := by
  induction a with
  | nil => simp
  | cons x xs ih => simp [ih]

/-- Interpretation of an 8-byte little-endian value as a signed 64-bit
integer (`i64::from_le_bytes`). -/
def toInt64 (n : Nat) : Int := if n < 2 ^ 63 then (n : Int) else (n : Int) - 2 ^ 64

/-- An item is a `(key, value)` pair of byte strings (`src/item.rs`). -/
structure Item where
  key : Bytes
  value : Bytes
  deriving DecidableEq

/-- Rust `Vec` lengths fit in a `usize` (64-bit). -/
def ItemWf (it : Item) : Prop := it.key.length < 2 ^ 64 ∧ it.value.length < 2 ^ 64

instance : DecidablePred ItemWf := fun it => by unfold ItemWf; infer_instance

/-- bincode standard-configuration varint encoding of an unsigned 64-bit
quantity: one byte below 251, marker 251/252/253 plus a little-endian
u16/u32/u64 otherwise. -/
def encVarint (n : Nat) : Bytes :=
  if h : n < 251 then [⟨n, by omega⟩]
  else if n < 2 ^ 16 then ⟨251, by omega⟩ :: toLE 2 n
  else if n < 2 ^ 32 then ⟨252, by omega⟩ :: toLE 4 n
  else ⟨253, by omega⟩ :: toLE 8 n

/-- bincode varint decoding (as used to decode a `usize` length). The u128
marker 254 is rejected, as a `usize` cannot be decoded from it. -/
def decVarint : Bytes → Option (Nat × Bytes)
  | [] => none
  | b :: r =>
    if b.val < 251 then some (b.val, r)
    else if b.val = 251 then
      if 2 ≤ r.length then some (natOfLE (r.take 2), r.drop 2) else none
    else if b.val = 252 then
      if 4 ≤ r.length then some (natOfLE (r.take 4), r.drop 4) else none
    else if b.val = 253 then
      if 8 ≤ r.length then some (natOfLE (r.take 8), r.drop 8) else none
    else none

theorem take_toLE_append (k n : Nat) (rest : Bytes) :
    (toLE k n ++ rest).take k = toLE k n := by
  have h := take_append_self (toLE k n) rest
  rwa [length_toLE] at h

theorem drop_toLE_append (k n : Nat) (rest : Bytes) :
    (toLE k n ++ rest).drop k = rest := by
  have h := drop_append_self (toLE k n) rest
  rwa [length_toLE] at h

theorem decVarint_encVarint (n : Nat) (rest : Bytes) (h : n < 2 ^ 64) :
    decVarint (encVarint n ++ rest) = some (n, rest) := by
  unfold encVarint
  split
  · next h1 =>
    simp [decVarint, h1]
  · next h1 =>
    split
    · next h2 =>
      simp only [List.cons_append, decVarint]
      norm_num [List.length_append, length_toLE, take_toLE_append,
        drop_toLE_append, natOfLE_toLE]
      omega
    · next h2 =>
      split
      · next h3 =>
        simp only [List.cons_append, decVarint]
        norm_num [List.length_append, length_toLE, take_toLE_append,
          drop_toLE_append, natOfLE_toLE]
        omega
      · next h3 =>
        simp only [List.cons_append, decVarint]
        norm_num [List.length_append, length_toLE, take_toLE_append,
          drop_toLE_append, natOfLE_toLE]
        omega

/-- `Record::as_bytes` for `Item`: bincode-encode the two byte vectors,
each as a varint length followed by the raw bytes (`src/item.rs`). -/
def Item.asBytes (it : Item) : Bytes :=
  encVarint it.key.length ++ (it.key ++ (encVarint it.value.length ++ it.value))

/-- `Record::from_bytes` for `Item`; `none` models `DeserializationError`.
Trailing bytes are ignored, as `decode_from_slice` reports the number of
bytes read and the caller drops it. -/
def Item.fromBytes (l : Bytes) : Option Item :=
  match decVarint l with
  | none => none
  | some (klen, r1) =>
    if klen ≤ r1.length then
      match decVarint (r1.drop klen) with
      | none => none
      | some (vlen, r3) =>
        if vlen ≤ r3.length then some ⟨r1.take klen, r3.take vlen⟩ else none
    else none

/-- Codec round-trip: `from_bytes(as_bytes(x)) = x`. -/
theorem Item.fromBytes_asBytes (it : Item) (h : ItemWf it) :
    Item.fromBytes it.asBytes = some it := by
  obtain ⟨hk, hv⟩ := h
  unfold Item.asBytes Item.fromBytes
  rw [decVarint_encVarint _ _ hk]
  simp only
  rw [if_pos (by simp), take_append_self, drop_append_self,
    decVarint_encVarint _ _ hv]
  simp only
  rw [if_pos (by simp), List.take_length]

theorem encVarint_ne_nil (n : Nat) : encVarint n ≠ [] := by
  unfold encVarint
  split
  · simp
  · split
    · simp
    · split <;> simp

theorem asBytes_length_pos (it : Item) : 0 < it.asBytes.length := by
  unfold Item.asBytes
  have := encVarint_ne_nil it.key.length
  cases hc : encVarint it.key.length with
  | nil => exact absurd hc this
  | cons a l => simp [hc]

/-!
FoundationDB tuple packing, as produced by the key constructions of
`src/cabinet.rs` and `src/stats.rs`:
* a `&str` or `&[u8]` tuple element is a type byte (`0x02` resp. `0x01`)
  followed by the element's bytes with every `0x00` escaped to `0x00 0xFF`,
  terminated by `0x00`;
* the enum values `0` and `1` of `src/prefix.rs` are packed as the tuple
  integers `0x14` and `0x15 0x01`.
-/

/-- Nul-escaping of tuple byte-string elements: `0x00 ↦ 0x00 0xFF`. -/
def escB : Bytes → Bytes
  | [] => []
  | b :: r => if b = 0 then b :: 255 :: escB r else b :: escB r

/-- Packed form of a `&str` tuple element (the tenant). -/
def packStr (t : Bytes) : Bytes := 2 :: (escB t ++ [0])

/-- Packed form of a `&[u8]` tuple element (an item key). -/
def packBytes (k : Bytes) : Bytes := 1 :: (escB k ++ [0])

/-- Whether a byte string starts with the escape-continuation byte `0xFF`;
everything the cabinet appends after a packed tenant starts with `0x14` or
`0x15`, so this is `false` for all suffixes of interest. -/
def headIsFF : Bytes → Bool
  | [] => false
  | b :: _ => decide (b = 255)

/-- Parse an escaped, `0x00`-terminated tuple element, returning the
unescaped content and the rest of the input. -/
def splitEsc : Bytes → Option (Bytes × Bytes)
  | [] => none
  | b :: r =>
    if b = 0 then
      match r with
      | [] => some ([], [])
      | c :: r2 =>
        if c = 255 then (splitEsc r2).map (fun p => (b :: p.1, p.2))
        else some ([], r)
    else (splitEsc r).map (fun p => (b :: p.1, p.2))

theorem splitEsc_cons_ne (b : Byte) (l : Bytes) (hb : ¬b = 0) :
    splitEsc (b :: l) = (splitEsc l).map (fun p => (b :: p.1, p.2)) := by
  cases l with
  | nil => simp [splitEsc, hb]
  | cons c r2 => simp [splitEsc, hb]

theorem splitEsc_zero_ff (r2 : Bytes) :
    splitEsc (0 :: 255 :: r2) =
      (splitEsc r2).map (fun p => ((0 : Byte) :: p.1, p.2)) := by
  simp [splitEsc]

theorem splitEsc_zero_nff (c : Byte) (r2 : Bytes) (hc : ¬c = 255) :
    splitEsc (0 :: c :: r2) = some ([], c :: r2) := by
  simp [splitEsc, hc]

theorem splitEsc_escB (x rest : Bytes) (h : headIsFF rest = false) :
    splitEsc (escB x ++ 0 :: rest) = some (x, rest) := by
  induction x with
  | nil =>
    cases rest with
    | nil => rfl
    | cons c r2 =>
      have hc : ¬c = 255 := by simpa [headIsFF] using h
      simpa using splitEsc_zero_nff c r2 hc
  | cons b x' ih =>
    by_cases hb : b = 0
    · subst hb
      have he : escB ((0 : Byte) :: x') ++ 0 :: rest =
          0 :: 255 :: (escB x' ++ 0 :: rest) := by
        simp [escB]
      rw [he, splitEsc_zero_ff, ih]
      rfl
    · have he : escB (b :: x') ++ 0 :: rest = b :: (escB x' ++ 0 :: rest) := by
        simp [escB, hb]
      rw [he, splitEsc_cons_ne b _ hb, ih]
      rfl

theorem splitEsc_sound_aux (n : Nat) :
    ∀ l : Bytes, l.length ≤ n → ∀ x rest, splitEsc l = some (x, rest) →
      l = escB x ++ 0 :: rest := by
  induction n with
  | zero =>
    intro l hl x rest h
    have : l = [] := List.length_eq_zero.mp (by omega)
    subst this
    simp [splitEsc] at h
  | succ n ih =>
    intro l hl x rest h
    match l with
    | [] => simp [splitEsc] at h
    | b :: r =>
      by_cases hb : b = 0
      · subst hb
        match r with
        | [] =>
          replace h : some (([] : Bytes), ([] : Bytes)) = some (x, rest) := h
          injection h with h
          injection h with h1 h2
          subst h1; subst h2
          rfl
        | c :: r2 =>
          by_cases hc : c = 255
          · subst hc
            rw [splitEsc_zero_ff] at h
            cases hsp : splitEsc r2 with
            | none => rw [hsp] at h; simp at h
            | some p =>
              rw [hsp] at h
              simp at h
              obtain ⟨hx, hr⟩ := h
              have hrec := ih r2 (by simp at hl; omega) p.1 p.2 (by rw [hsp])
              subst hx; subst hr
              rw [hrec]
              simp [escB]
          · rw [splitEsc_zero_nff c r2 hc] at h
            injection h with h
            injection h with h1 h2
            subst h1; subst h2
            rfl
      · rw [splitEsc_cons_ne b r hb] at h
        cases hsp : splitEsc r with
        | none => rw [hsp] at h; simp at h
        | some p =>
          rw [hsp] at h
          simp at h
          obtain ⟨hx, hr⟩ := h
          have hrec := ih r (by simp at hl; omega) p.1 p.2 (by rw [hsp])
          subst hx; subst hr
          rw [hrec]
          simp [escB, hb]

theorem splitEsc_sound (l x rest : Bytes) (h : splitEsc l = some (x, rest)) :
    l = escB x ++ 0 :: rest :=
  splitEsc_sound_aux l.length l le_rfl x rest h

/-- Parse off the leading packed tenant of a key produced by the cabinet. -/
def parseTenantKey (key : Bytes) : Option (Bytes × Bytes) :=
  match key with
  | b :: r => if b = 2 then splitEsc r else none
  | [] => none

theorem parseTenantKey_pack (t a : Bytes) (h : headIsFF a = false) :
    parseTenantKey (packStr t ++ a) = some (t, a) := by
  have hs : packStr t ++ a = 2 :: (escB t ++ 0 :: a) := by simp [packStr]
  rw [hs]
  simp only [parseTenantKey, if_pos rfl]
  exact splitEsc_escB t a h

theorem parseTenantKey_sound (key t r : Bytes)
    (h : parseTenantKey key = some (t, r)) : key = packStr t ++ r := by
  match key with
  | [] => simp [parseTenantKey] at h
  | b :: rr =>
    by_cases hb : b = 2
    · subst hb
      simp only [parseTenantKey, if_pos rfl] at h
      have := splitEsc_sound rr t r h
      rw [packStr]
      simp [this]
    · simp [parseTenantKey, hb] at h

/-- Keys sharing a packed-tenant prefix followed by a non-`0xFF` byte
determine the tenant and the suffix uniquely. -/
theorem packStr_append_inj (t t' a b : Bytes) (ha : headIsFF a = false)
    (hb : headIsFF b = false) (h : packStr t ++ a = packStr t' ++ b) :
    t = t' ∧ a = b := by
  have h1 := parseTenantKey_pack t a ha
  rw [h, parseTenantKey_pack t' b hb] at h1
  simp at h1
  exact ⟨h1.1.symm, h1.2.symm⟩

/-!
The concrete key layout (`src/cabinet.rs`, `src/stats.rs`, `src/prefix.rs`):
* data:  `<tenant, Prefix::Data = 0, key>`,
* count: `<tenant, Prefix::Stats = 1, EntityType::Headcount = 0, StatType::Value = 0>`,
* size:  `<tenant, Prefix::Stats = 1, EntityType::Sizes = 1, StatType::Value = 0>`.
The tuple integers `0` and `1` pack to `0x14` and `0x15 0x01`.
-/

/-- Key of the stored blob for `key` under tenant `t`. -/
def dataKey (t k : Bytes) : Bytes := packStr t ++ 0x14 :: packBytes k

/-- Key of the headcount counter of tenant `t`. -/
def countKey (t : Bytes) : Bytes := packStr t ++ [0x15, 1, 0x14, 0x14]

/-- Key of the size counter of tenant `t`. -/
def sizeKey (t : Bytes) : Bytes := packStr t ++ [0x15, 1, 0x15, 1, 0x14]

/-- `Subspace::range()` start bound of the tenant's data section. -/
def dataLo (t : Bytes) : Bytes := packStr t ++ [0x14, 0x00]

/-- `Subspace::range()` end bound of the tenant's data section. -/
def dataHi (t : Bytes) : Bytes := packStr t ++ [0x14, 0xFF]

/-- Recover `k` from a key of the form `dataKey t k`; `none` when the key
is not a data key of tenant `t`. -/
def decodeDataKey (t key : Bytes) : Option Bytes :=
  match parseTenantKey key with
  | some (t', r) =>
    if t' = t then
      match r with
      | b0 :: b1 :: r2 =>
        if b0 = 0x14 then
          if b1 = 1 then
            match splitEsc r2 with
            | some (k, rr) => if rr = [] then some k else none
            | none => none
          else none
        else none
      | _ => none
    else none
  | none => none

theorem decodeDataKey_dataKey (t k : Bytes) :
    decodeDataKey t (dataKey t k) = some k := by
  unfold dataKey decodeDataKey
  rw [parseTenantKey_pack _ _ (by simp [headIsFF])]
  simp only [if_pos rfl, packBytes]
  have : (escB k ++ [(0 : Byte)]) = escB k ++ 0 :: [] := by simp
  rw [this, splitEsc_escB _ _ (by simp [headIsFF])]
  simp

theorem decodeDataKey_dataKey_ne (t t' k : Bytes) (h : t' ≠ t) :
    decodeDataKey t (dataKey t' k) = none := by
  unfold dataKey decodeDataKey
  rw [parseTenantKey_pack _ _ (by simp [headIsFF])]
  simp [h]

theorem decodeDataKey_countKey (t t' : Bytes) :
    decodeDataKey t (countKey t') = none := by
  unfold countKey decodeDataKey
  rw [parseTenantKey_pack _ _ (by simp [headIsFF])]
  by_cases h : t' = t <;> simp [h]

theorem decodeDataKey_sizeKey (t t' : Bytes) :
    decodeDataKey t (sizeKey t') = none := by
  unfold sizeKey decodeDataKey
  rw [parseTenantKey_pack _ _ (by simp [headIsFF])]
  by_cases h : t' = t <;> simp [h]

theorem decodeDataKey_sound (t key k : Bytes)
    (h : decodeDataKey t key = some k) : key = dataKey t k := by
  unfold decodeDataKey at h
  cases hp : parseTenantKey key with
  | none => rw [hp] at h; simp at h
  | some p =>
    obtain ⟨t', r⟩ := p
    rw [hp] at h
    by_cases ht : t' = t
    · subst ht
      cases r with
      | nil => simp at h
      | cons b0 rr =>
        cases rr with
        | nil => simp at h
        | cons b1 r2 =>
          by_cases hb0 : b0 = 0x14
          · subst hb0
            by_cases hb1 : b1 = 1
            · subst hb1
              replace h : (match splitEsc r2 with
                  | some (kk, rr) => if rr = [] then some kk else none
                  | none => none) = some k := by simpa using h
              cases hs : splitEsc r2 with
              | none => rw [hs] at h; simp at h
              | some q =>
                obtain ⟨kk, rr2⟩ := q
                rw [hs] at h
                by_cases hr : rr2 = []
                · subst hr
                  simp at h
                  subst h
                  have h2 := splitEsc_sound r2 kk [] hs
                  have h1 := parseTenantKey_sound key _ _ hp
                  rw [h1, h2, dataKey, packBytes]
                · simp [hr] at h
            · simp [hb1] at h
          · simp [hb0] at h
    · simp [ht] at h

theorem dataKey_inj (t t' k k' : Bytes) (h : dataKey t k = dataKey t' k') :
    t = t' ∧ k = k' := by
  have h1 := decodeDataKey_dataKey t k
  rw [h] at h1
  by_cases ht : t = t'
  · subst ht
    rw [decodeDataKey_dataKey] at h1
    simp at h1
    exact ⟨rfl, h1.symm⟩
  · rw [decodeDataKey_dataKey_ne t t' k' (fun hh => ht hh.symm)] at h1
    simp at h1

theorem dataKey_ne_countKey (t t' k : Bytes) : dataKey t k ≠ countKey t' := by
  intro h
  have := decodeDataKey_dataKey t k
  rw [h, decodeDataKey_countKey] at this
  simp at this

theorem dataKey_ne_sizeKey (t t' k : Bytes) : dataKey t k ≠ sizeKey t' := by
  intro h
  have := decodeDataKey_dataKey t k
  rw [h, decodeDataKey_sizeKey] at this
  simp at this

theorem countKey_inj (t t' : Bytes) (h : countKey t = countKey t') : t = t' :=
  (packStr_append_inj t t' _ _ (by simp [headIsFF]) (by simp [headIsFF]) h).1

theorem sizeKey_inj (t t' : Bytes) (h : sizeKey t = sizeKey t') : t = t' :=
  (packStr_append_inj t t' _ _ (by simp [headIsFF]) (by simp [headIsFF]) h).1

theorem countKey_ne_sizeKey (t t' : Bytes) : countKey t ≠ sizeKey t' := by
  intro h
  have := (packStr_append_inj t t' _ _ (by simp [headIsFF]) (by simp [headIsFF]) h).2
  simp at this

/-!
The backing store orders keys bytewise-lexicographically; `clear_range`
removes the keys in `[start, end)`.
-/

/-- Bytewise lexicographic strict order on keys (a proper prefix is
smaller). -/
def keyLt : Bytes → Bytes → Bool
  | [], [] => false
  | [], _ :: _ => true
  | _ :: _, [] => false
  | a :: as, b :: bs =>
    if a.val < b.val then true else if b.val < a.val then false else keyLt as bs

/-- Membership of `k` in the half-open key range `[lo, hi)`. -/
def inRange (lo hi k : Bytes) : Bool := !keyLt k lo && keyLt k hi

theorem keyLt_nil_right (a : Bytes) : keyLt a [] = false := by
  cases a <;> simp [keyLt]

theorem keyLt_append_left (p a b : Bytes) :
    keyLt (p ++ a) (p ++ b) = keyLt a b := by
  induction p with
  | nil => rfl
  | cons d p' ih => simp [keyLt, ih]

theorem val_byte_zero : (0 : Byte).val = 0 := rfl

theorem val_byte_ff : (255 : Byte).val = 255 := rfl

theorem keyLt_cons_zero (c : Byte) (r : Bytes) : keyLt (c :: r) [0] = false := by
  simp only [keyLt, val_byte_zero]
  rw [if_neg (by omega), keyLt_nil_right, ite_self]

theorem keyLt_cons_ff (c : Byte) (r : Bytes) (h : c ≠ 255) :
    keyLt (c :: r) [255] = true := by
  have hc : c.val < 255 := by
    have := c.isLt
    have : c.val ≠ 255 := fun hh => h (Fin.ext (by rw [hh]; rfl))
    omega
  simp [keyLt, val_byte_ff, hc]

theorem inRange_intro (p r' : Bytes) (c : Byte) (hc : c ≠ 255) :
    inRange (p ++ [0]) (p ++ [255]) (p ++ c :: r') = true := by
  unfold inRange
  rw [keyLt_append_left, keyLt_append_left, keyLt_cons_zero, keyLt_cons_ff c r' hc]
  rfl

theorem inRange_elim (p : Bytes) :
    ∀ k, inRange (p ++ [0]) (p ++ [255]) k = true →
      ∃ (c : Byte) (r' : Bytes), k = p ++ c :: r' ∧ c ≠ 255 := by
  induction p with
  | nil =>
    intro k h
    simp only [List.nil_append] at h
    cases k with
    | nil => simp [inRange, keyLt] at h
    | cons c r' =>
      refine ⟨c, r', rfl, ?_⟩
      intro hc
      subst hc
      unfold inRange at h
      have hff : keyLt ((255 : Byte) :: r') [255] = false := by
        simp [keyLt, val_byte_ff, keyLt_nil_right]
      rw [hff] at h
      simp at h
  | cons d p' ih =>
    intro k h
    cases k with
    | nil =>
      unfold inRange at h
      simp [keyLt] at h
    | cons e k' =>
      unfold inRange at h
      by_cases hlt : e.val < d.val
      · exfalso
        have : keyLt (e :: k') (d :: (p' ++ [0])) = true := by
          simp [keyLt, hlt]
        simp only [List.cons_append] at h
        rw [this] at h
        simp at h
      · by_cases hgt : d.val < e.val
        · exfalso
          have : keyLt (e :: k') (d :: (p' ++ [255])) = false := by
            simp [keyLt, hgt]
            omega
          simp only [List.cons_append] at h
          rw [this] at h
          simp at h
        · have he : e = d := Fin.ext (by omega)
          subst he
          have hred : inRange (p' ++ [0]) (p' ++ [255]) k' = true := by
            unfold inRange
            simp only [List.cons_append, keyLt] at h
            rw [if_neg (by omega), if_neg (by omega)] at h
            rw [if_neg (by omega), if_neg (by omega)] at h
            exact h
          obtain ⟨c, r', hk, hc⟩ := ih k' hred
          exact ⟨c, r', by rw [hk]; rfl, hc⟩

/-!
The per-transaction view of the backing store: an association list from
packed keys to raw values, with at most one entry per key (`setKV` erases
before inserting).
-/

abbrev KV := List (Bytes × Bytes)

def lookupKV (key : Bytes) : KV → Option Bytes
  | [] => none
  | e :: s => if e.1 = key then some e.2 else lookupKV key s

def eraseKV (key : Bytes) : KV → KV
  | [] => []
  | e :: s => if e.1 = key then eraseKV key s else e :: eraseKV key s

/-- `transaction.set(key, v)`. -/
def setKV (key v : Bytes) (s : KV) : KV := (key, v) :: eraseKV key s

/-- `transaction.clear_range(lo, hi)`: drop every entry in `[lo, hi)`. -/
def clearRangeKV (lo hi : Bytes) : KV → KV
  | [] => []
  | e :: s =>
    if inRange lo hi e.1 then clearRangeKV lo hi s else e :: clearRangeKV lo hi s

/-- `transaction.atomic_op(key, param, MutationType::Add)`: little-endian
addition; an absent or short value is zero-extended to `param`'s length and
a longer one truncated, and the sum is stored at `param`'s length. -/
def atomicAdd (key param : Bytes) (s : KV) : KV :=
  let old := (lookupKV key s).getD []
  let oldN := natOfLE (old.take param.length)
  setKV key (toLE param.length ((oldN + natOfLE param) % 256 ^ param.length)) s

theorem lookupKV_set_self (k v : Bytes) (s : KV) :
    lookupKV k (setKV k v s) = some v := by
  simp [setKV, lookupKV]

theorem lookupKV_erase_ne (k k' : Bytes) (s : KV) (h : k' ≠ k) :
    lookupKV k' (eraseKV k s) = lookupKV k' s := by
  induction s with
  | nil => rfl
  | cons e s ih =>
    by_cases he : e.1 = k
    · rw [eraseKV, if_pos he, ih, lookupKV, if_neg (by rw [he]; exact fun hh => h hh.symm)]
    · rw [eraseKV, if_neg he]
      by_cases hk : e.1 = k'
      · rw [lookupKV, if_pos hk, lookupKV, if_pos hk]
      · rw [lookupKV, if_neg hk, lookupKV, if_neg hk, ih]

theorem lookupKV_set_ne (k k' v : Bytes) (s : KV) (h : k' ≠ k) :
    lookupKV k' (setKV k v s) = lookupKV k' s := by
  rw [setKV, lookupKV, if_neg (fun hh => h hh.symm), lookupKV_erase_ne _ _ _ h]

theorem lookupKV_erase_self (k : Bytes) (s : KV) :
    lookupKV k (eraseKV k s) = none := by
  induction s with
  | nil => rfl
  | cons e s ih =>
    by_cases he : e.1 = k
    · rw [eraseKV, if_pos he, ih]
    · rw [eraseKV, if_neg he, lookupKV, if_neg he, ih]

theorem lookupKV_clearRange (lo hi k : Bytes) (s : KV) :
    lookupKV k (clearRangeKV lo hi s) =
      if inRange lo hi k then none else lookupKV k s := by
  induction s with
  | nil => simp [clearRangeKV, lookupKV]
  | cons e s ih =>
    by_cases he : inRange lo hi e.1
    · rw [clearRangeKV, if_pos he, ih]
      by_cases hk : e.1 = k
      · subst hk
        rw [if_pos he, if_pos he]
      · rw [lookupKV, if_neg hk]
    · rw [clearRangeKV, if_neg he]
      by_cases hk : e.1 = k
      · subst hk
        rw [if_neg he, lookupKV, if_pos rfl, lookupKV, if_pos rfl]
      · rw [lookupKV, if_neg hk, ih, lookupKV, if_neg hk]

theorem eraseKV_of_lookup_none (k : Bytes) (s : KV) (h : lookupKV k s = none) :
    eraseKV k s = s := by
  induction s with
  | nil => rfl
  | cons e s ih =>
    rw [lookupKV] at h
    by_cases he : e.1 = k
    · rw [if_pos he] at h; exact absurd h (by simp)
    · rw [if_neg he] at h
      rw [eraseKV, if_neg he, ih h]

/-- Error cases surfaced by the cabinet (`src/errors.rs`, `cabinet-lib`):
codec failure, a malformed counter value, a stored value that is not valid
UTF-8, and the `unreachable!` arm of the request dispatcher. -/
inductive CabErr where
  | deserialization
  | invalidCountStatsValue
  | utf8Error
  | unreachableBranch
  deriving DecidableEq

instance {ε α : Type} [DecidableEq ε] [DecidableEq α] : DecidableEq (Except ε α) := fun x y =>
  match x, y with
  | .ok a, .ok b =>
    if h : a = b then .isTrue (by rw [h])
    else .isFalse (by intro hh; cases hh; exact h rfl)
  | .error a, .error b =>
    if h : a = b then .isTrue (by rw [h])
    else .isFalse (by intro hh; cases hh; exact h rfl)
  | .ok _, .error _ => .isFalse fun h => Except.noConfusion h
  | .error _, .ok _ => .isFalse fun h => Except.noConfusion h

/-- `Cabinet::put` (`src/cabinet.rs`): write `as_bytes(item)` at
`<t, DATA, key>`, then `StatEvent::Put`: atomic-add the item's encoded
length to the size counter and `+1` to the headcount counter (`StatsHolder`
updates sizes first, then headcount). -/
def Cabinet.put (t : Bytes) (it : Item) (s : KV) : KV :=
  let s1 := setKV (dataKey t it.key) it.asBytes s
  let s2 := atomicAdd (sizeKey t) (toLE 8 it.asBytes.length) s1
  atomicAdd (countKey t) (toLE 8 1) s2

/-- `Cabinet::get`: snapshot-read `<t, DATA, key>` and decode. -/
def Cabinet.get (t k : Bytes) (s : KV) : Except CabErr (Option Item) :=
  match lookupKV (dataKey t k) s with
  | none => .ok none
  | some raw =>
    match Item.fromBytes raw with
    | none => .error .deserialization
    | some it => .ok (some it)

/-- `Cabinet::delete`: read via `get`; when absent return `None` and leave
the state untouched; else clear the data key and atomic-add the negated
length and `-1` to the counters. -/
def Cabinet.delete (t k : Bytes) (s : KV) : Except CabErr (Option Item × KV) :=
  match Cabinet.get t k s with
  | .error e => .error e
  | .ok none => .ok (none, s)
  | .ok (some it) =>
    let s1 := eraseKV (dataKey t k) s
    let s2 := atomicAdd (sizeKey t)
      (toLE 8 ((2 ^ 64 - it.asBytes.length % 2 ^ 64) % 2 ^ 64)) s1
    let s3 := atomicAdd (countKey t) (toLE 8 (2 ^ 64 - 1)) s2
    .ok (some it, s3)

/-- `Cabinet::clear`: `clear_range` over the data section's
`Subspace::range()` bounds, then `StatEvent::DeleteAll` clears both counter
keys (sizes first, then headcount). -/
def Cabinet.clear (t : Bytes) (s : KV) : KV :=
  let s1 := clearRangeKV (dataLo t) (dataHi t) s
  let s2 := eraseKV (sizeKey t) s1
  eraseKV (countKey t) s2

/-- The shared body of `HeadcountStats::get_count` and
`SizeStats::get_size` (`src/stats.rs`): absent counter reads as `0`; a
present value must be exactly 8 bytes and is decoded as a little-endian
`i64`, otherwise `InvalidCountStatsValue`. -/
def counterRead (ctr : Bytes) (s : KV) : Except CabErr Int :=
  match lookupKV ctr s with
  | none => .ok 0
  | some v =>
    if v.length = 8 then .ok (toInt64 (natOfLE v))
    else .error .invalidCountStatsValue

/-- `HeadcountStats::get_count`. -/
def getCount (t : Bytes) (s : KV) : Except CabErr Int :=
  counterRead (countKey t) s

/-- `SizeStats::get_size`. -/
def getSize (t : Bytes) (s : KV) : Except CabErr Int :=
  counterRead (sizeKey t) s

/-!
Counting the live data of a tenant in a store: `countData` is the number of
entries whose key is a data key `<t, 0, k>` of tenant `t`, and `sizeData`
is the total length of the blobs stored at such keys. With distinct entry
keys (`KeysOk`, an invariant of every reachable store) these are exactly
the cardinality and total size the specification speaks about.
-/

def countData (t : Bytes) : KV → Nat
  | [] => 0
  | e :: s => (if (decodeDataKey t e.1).isSome then 1 else 0) + countData t s

def sizeData (t : Bytes) : KV → Nat
  | [] => 0
  | e :: s => (if (decodeDataKey t e.1).isSome then e.2.length else 0) + sizeData t s

/-- Entry keys are pairwise distinct. -/
def KeysOk (s : KV) : Prop := (s.map Prod.fst).Nodup

theorem eraseKV_sublist (k : Bytes) (s : KV) : (eraseKV k s).Sublist s := by
  induction s with
  | nil => simp [eraseKV]
  | cons e s ih =>
    rw [eraseKV]
    split
    · exact ih.cons e
    · exact ih.cons₂ e

theorem clearRangeKV_sublist (lo hi : Bytes) (s : KV) :
    (clearRangeKV lo hi s).Sublist s := by
  induction s with
  | nil => simp [clearRangeKV]
  | cons e s ih =>
    rw [clearRangeKV]
    split
    · exact ih.cons e
    · exact ih.cons₂ e

theorem KeysOk_erase (k : Bytes) (s : KV) (h : KeysOk s) : KeysOk (eraseKV k s) :=
  ((eraseKV_sublist k s).map Prod.fst).nodup h

theorem KeysOk_clearRange (lo hi : Bytes) (s : KV) (h : KeysOk s) :
    KeysOk (clearRangeKV lo hi s) :=
  ((clearRangeKV_sublist lo hi s).map Prod.fst).nodup h

theorem not_mem_fst_erase (k : Bytes) (s : KV) :
    k ∉ (eraseKV k s).map Prod.fst := by
  induction s with
  | nil => simp [eraseKV]
  | cons e s ih =>
    rw [eraseKV]
    split
    · exact ih
    · next he =>
      simp only [List.map_cons, List.mem_cons]
      rintro (h | h)
      · exact he h.symm
      · exact ih h

theorem KeysOk_set (k v : Bytes) (s : KV) (h : KeysOk s) : KeysOk (setKV k v s) := by
  unfold KeysOk setKV
  simp only [List.map_cons, List.nodup_cons]
  exact ⟨not_mem_fst_erase k s, KeysOk_erase k s h⟩

theorem lookupKV_none_of_not_mem (k : Bytes) (s : KV)
    (h : k ∉ s.map Prod.fst) : lookupKV k s = none := by
  induction s with
  | nil => rfl
  | cons e s ih =>
    simp only [List.map_cons, List.mem_cons] at h
    push_neg at h
    rw [lookupKV, if_neg (fun hh => h.1 hh.symm), ih h.2]

/-! Effect of the store primitives on `countData` and `sizeData`. -/

theorem countData_erase_of_none (t k : Bytes) (s : KV)
    (h : decodeDataKey t k = none) :
    countData t (eraseKV k s) = countData t s := by
  induction s with
  | nil => rfl
  | cons e s ih =>
    rw [eraseKV]
    split
    · next he =>
      rw [countData, he, h]
      simp [ih]
    · rw [countData, countData, ih]

theorem sizeData_erase_of_none (t k : Bytes) (s : KV)
    (h : decodeDataKey t k = none) :
    sizeData t (eraseKV k s) = sizeData t s := by
  induction s with
  | nil => rfl
  | cons e s ih =>
    rw [eraseKV]
    split
    · next he =>
      rw [sizeData, he, h]
      simp [ih]
    · rw [sizeData, sizeData, ih]

theorem countData_erase_of_data (t k k0 raw : Bytes) (s : KV) (hok : KeysOk s)
    (hl : lookupKV k s = some raw) (hd : decodeDataKey t k = some k0) :
    countData t s = 1 + countData t (eraseKV k s) := by
  induction s with
  | nil => simp [lookupKV] at hl
  | cons e s ih =>
    have hok' : KeysOk s := by
      unfold KeysOk at hok ⊢
      simp only [List.map_cons, List.nodup_cons] at hok
      exact hok.2
    by_cases he : e.1 = k
    · have hmem : k ∉ s.map Prod.fst := by
        unfold KeysOk at hok
        simp only [List.map_cons, List.nodup_cons] at hok
        rw [← he]
        exact hok.1
      rw [eraseKV, if_pos he, eraseKV_of_lookup_none _ _ (lookupKV_none_of_not_mem _ _ hmem)]
      rw [countData, he, hd]
      simp
    · rw [lookupKV, if_neg he] at hl
      rw [eraseKV, if_neg he, countData, countData, ih hok' hl]
      omega

theorem sizeData_erase_of_data (t k k0 raw : Bytes) (s : KV) (hok : KeysOk s)
    (hl : lookupKV k s = some raw) (hd : decodeDataKey t k = some k0) :
    sizeData t s = raw.length + sizeData t (eraseKV k s) := by
  induction s with
  | nil => simp [lookupKV] at hl
  | cons e s ih =>
    have hok' : KeysOk s := by
      unfold KeysOk at hok ⊢
      simp only [List.map_cons, List.nodup_cons] at hok
      exact hok.2
    by_cases he : e.1 = k
    · have hmem : k ∉ s.map Prod.fst := by
        unfold KeysOk at hok
        simp only [List.map_cons, List.nodup_cons] at hok
        rw [← he]
        exact hok.1
      rw [lookupKV, if_pos he] at hl
      have hraw : e.2 = raw := by injection hl
      rw [eraseKV, if_pos he, eraseKV_of_lookup_none _ _ (lookupKV_none_of_not_mem _ _ hmem)]
      rw [sizeData, he, hd, hraw]
      simp
    · rw [lookupKV, if_neg he] at hl
      rw [eraseKV, if_neg he, sizeData, sizeData, ih hok' hl]
      omega

theorem countData_set_of_none (t k v : Bytes) (s : KV)
    (h : decodeDataKey t k = none) :
    countData t (setKV k v s) = countData t s := by
  rw [setKV, countData, h, countData_erase_of_none t k s h]
  simp

theorem sizeData_set_of_none (t k v : Bytes) (s : KV)
    (h : decodeDataKey t k = none) :
    sizeData t (setKV k v s) = sizeData t s := by
  rw [setKV, sizeData, h, sizeData_erase_of_none t k s h]
  simp

/-! Membership of the cabinet's keys in the cleared data range. -/

theorem dataLo_assoc (t : Bytes) : dataLo t = (packStr t ++ [0x14]) ++ [0] := by
  simp [dataLo]

theorem dataHi_assoc (t : Bytes) : dataHi t = (packStr t ++ [0x14]) ++ [255] := by
  simp [dataHi]

theorem dataKey_in_range (t k : Bytes) :
    inRange (dataLo t) (dataHi t) (dataKey t k) = true := by
  rw [dataLo_assoc, dataHi_assoc]
  have hk : dataKey t k = (packStr t ++ [0x14]) ++ 1 :: (escB k ++ [0]) := by
    simp [dataKey, packBytes]
  rw [hk]
  exact inRange_intro _ _ _ (by decide)

theorem range_member_shape (t key : Bytes)
    (h : inRange (dataLo t) (dataHi t) key = true) :
    ∃ (c : Byte) (r' : Bytes), key = packStr t ++ 0x14 :: c :: r' ∧ c ≠ 255 := by
  rw [dataLo_assoc, dataHi_assoc] at h
  obtain ⟨c, r', hk, hc⟩ := inRange_elim _ _ h
  exact ⟨c, r', by rw [hk]; simp, hc⟩

theorem countKey_not_in_range (t t0 : Bytes) :
    inRange (dataLo t) (dataHi t) (countKey t0) = false := by
  by_contra h
  rw [Bool.not_eq_false] at h
  obtain ⟨c, r', hk, _⟩ := range_member_shape t _ h
  rw [countKey] at hk
  have := (packStr_append_inj t0 t _ _ (by simp [headIsFF]) (by simp [headIsFF]) hk).2
  simp at this

theorem sizeKey_not_in_range (t t0 : Bytes) :
    inRange (dataLo t) (dataHi t) (sizeKey t0) = false := by
  by_contra h
  rw [Bool.not_eq_false] at h
  obtain ⟨c, r', hk, _⟩ := range_member_shape t _ h
  rw [sizeKey] at hk
  have := (packStr_append_inj t0 t _ _ (by simp [headIsFF]) (by simp [headIsFF]) hk).2
  simp at this

theorem dataKey_not_in_range_ne (t t0 k : Bytes) (h : t0 ≠ t) :
    inRange (dataLo t) (dataHi t) (dataKey t0 k) = false := by
  by_contra hr
  rw [Bool.not_eq_false] at hr
  obtain ⟨c, r', hk, _⟩ := range_member_shape t _ hr
  rw [dataKey] at hk
  exact h (packStr_append_inj t0 t _ _ (by simp [headIsFF]) (by simp [headIsFF]) hk).1

theorem countData_clearRange_self (t : Bytes) (s : KV) :
    countData t (clearRangeKV (dataLo t) (dataHi t) s) = 0 := by
  induction s with
  | nil => rfl
  | cons e s ih =>
    rw [clearRangeKV]
    split
    · exact ih
    · next he =>
      rw [countData, ih]
      cases hd : decodeDataKey t e.1 with
      | none => simp
      | some k =>
        exfalso
        rw [decodeDataKey_sound t e.1 k hd] at he
        exact he (dataKey_in_range t k)

theorem sizeData_clearRange_self (t : Bytes) (s : KV) :
    sizeData t (clearRangeKV (dataLo t) (dataHi t) s) = 0 := by
  induction s with
  | nil => rfl
  | cons e s ih =>
    rw [clearRangeKV]
    split
    · exact ih
    · next he =>
      rw [sizeData, ih]
      cases hd : decodeDataKey t e.1 with
      | none => simp
      | some k =>
        exfalso
        rw [decodeDataKey_sound t e.1 k hd] at he
        exact he (dataKey_in_range t k)

theorem countData_clearRange_other (t t0 : Bytes) (s : KV) (h : t0 ≠ t) :
    countData t0 (clearRangeKV (dataLo t) (dataHi t) s) = countData t0 s := by
  induction s with
  | nil => rfl
  | cons e s ih =>
    rw [clearRangeKV]
    split
    · next he =>
      rw [countData, ih]
      cases hd : decodeDataKey t0 e.1 with
      | none => simp
      | some k =>
        exfalso
        rw [decodeDataKey_sound t0 e.1 k hd] at he
        rw [dataKey_not_in_range_ne t t0 k h] at he
        exact Bool.noConfusion he
    · rw [countData, countData, ih]

theorem sizeData_clearRange_other (t t0 : Bytes) (s : KV) (h : t0 ≠ t) :
    sizeData t0 (clearRangeKV (dataLo t) (dataHi t) s) = sizeData t0 s := by
  induction s with
  | nil => rfl
  | cons e s ih =>
    rw [clearRangeKV]
    split
    · next he =>
      rw [sizeData, ih]
      cases hd : decodeDataKey t0 e.1 with
      | none => simp
      | some k =>
        exfalso
        rw [decodeDataKey_sound t0 e.1 k hd] at he
        rw [dataKey_not_in_range_ne t t0 k h] at he
        exact Bool.noConfusion he
    · rw [sizeData, sizeData, ih]

/-! Little-endian counter arithmetic. -/

theorem pow256_8 : (256 : ℕ) ^ 8 = 2 ^ 64 := by norm_num

theorem natOfLE_toLE8 (x : Nat) : natOfLE (toLE 8 x) = x % 2 ^ 64 := by
  rw [natOfLE_toLE, pow256_8]

theorem take8_toLE8 (x : Nat) : (toLE 8 x).take 8 = toLE 8 x := by
  have h := List.take_length (toLE 8 x)
  rw [length_toLE] at h
  exact h

/-- The stored counter value agrees with the abstract count `n`: either the
key is absent and `n = 0`, or it holds the 8-byte little-endian encoding of
`n` modulo `2^64`. -/
def counterOk (ctr : Bytes) (n : Nat) (s : KV) : Prop :=
  (lookupKV ctr s = none ∧ n = 0) ∨ lookupKV ctr s = some (toLE 8 (n % 2 ^ 64))

theorem natOfLE_nil : natOfLE [] = 0 := rfl

theorem counterOk_add (ctr : Bytes) (n d : Nat) (s : KV) (h : counterOk ctr n s) :
    lookupKV ctr (atomicAdd ctr (toLE 8 d) s) = some (toLE 8 ((n + d) % 2 ^ 64)) := by
  unfold atomicAdd
  rw [length_toLE, lookupKV_set_self]
  cases h with
  | inl h =>
    rw [h.1, h.2]
    simp only [Option.getD_none, List.take_nil, natOfLE_nil, natOfLE_toLE8, pow256_8]
    have hh : (0 + d % 2 ^ 64) % 2 ^ 64 = (0 + d) % 2 ^ 64 := by omega
    rw [hh]
  | inr h =>
    rw [h]
    simp only [Option.getD_some, take8_toLE8, natOfLE_toLE8, pow256_8]
    have hh : (n % 2 ^ 64 % 2 ^ 64 + d % 2 ^ 64) % 2 ^ 64 = (n + d) % 2 ^ 64 := by omega
    rw [hh]

theorem lookup_atomicAdd_ne (k k' param : Bytes) (s : KV) (h : k' ≠ k) :
    lookupKV k' (atomicAdd k param s) = lookupKV k' s :=
  lookupKV_set_ne k k' _ s h

theorem countData_atomicAdd_of_none (t k param : Bytes) (s : KV)
    (h : decodeDataKey t k = none) :
    countData t (atomicAdd k param s) = countData t s :=
  countData_set_of_none t k _ s h

theorem sizeData_atomicAdd_of_none (t k param : Bytes) (s : KV)
    (h : decodeDataKey t k = none) :
    sizeData t (atomicAdd k param s) = sizeData t s :=
  sizeData_set_of_none t k _ s h

theorem KeysOk_atomicAdd (k param : Bytes) (s : KV) (h : KeysOk s) :
    KeysOk (atomicAdd k param s) :=
  KeysOk_set k _ s h

theorem mem_of_lookupKV (k v : Bytes) (s : KV) (h : lookupKV k s = some v) :
    (k, v) ∈ s := by
  induction s with
  | nil => simp [lookupKV] at h
  | cons e s ih =>
    rw [lookupKV] at h
    by_cases he : e.1 = k
    · rw [if_pos he] at h
      have hv : e.2 = v := by injection h
      have he2 : e = (k, v) := Prod.ext he hv
      rw [← he2]
      exact List.mem_cons_self e s
    · rw [if_neg he] at h
      exact List.mem_cons_of_mem e (ih h)

theorem mem_setKV (k v : Bytes) (s : KV) (e : Bytes × Bytes)
    (h : e ∈ setKV k v s) : e = (k, v) ∨ e ∈ s := by
  unfold setKV at h
  rcases List.mem_cons.mp h with h | h
  · exact Or.inl h
  · exact Or.inr ((eraseKV_sublist _ _).subset h)

theorem mem_atomicAdd (k param : Bytes) (s : KV) (e : Bytes × Bytes)
    (h : e ∈ atomicAdd k param s) : e.1 = k ∨ e ∈ s := by
  unfold atomicAdd at h
  rcases mem_setKV _ _ _ _ h with h | h
  · exact Or.inl (by rw [h])
  · exact Or.inr h

/-!
The stats invariant of the specification, relative to the amended `put`
contract (a `put` never overwrites): entry keys are distinct, every stored
data blob is the encoding of a well-formed item whose key matches its data
key, and both counters of every tenant agree with the live data.
-/

def DataOk (s : KV) : Prop :=
  ∀ e ∈ s, ∀ t k, decodeDataKey t e.1 = some k →
    ∃ it, ItemWf it ∧ it.key = k ∧ e.2 = it.asBytes

def Inv (s : KV) : Prop :=
  KeysOk s ∧ DataOk s ∧
  ∀ t, counterOk (countKey t) (countData t s) s ∧
    counterOk (sizeKey t) (sizeData t s) s

/-- Stores reachable from the empty store by committed cabinet operations
in which every `put` stores a fresh key (no overwrite). -/
inductive Reach : KV → Prop where
  | nil : Reach []
  | put {s : KV} {t : Bytes} {it : Item} : Reach s → ItemWf it →
      lookupKV (dataKey t it.key) s = none → Reach (Cabinet.put t it s)
  | del {s s' : KV} {t k : Bytes} {r : Option Item} : Reach s →
      Cabinet.delete t k s = .ok (r, s') → Reach s'
  | clr {s : KV} {t : Bytes} : Reach s → Reach (Cabinet.clear t s)

theorem Inv_nil : Inv [] := by
  refine ⟨by simp [KeysOk], by intro e he; simp at he, ?_⟩
  intro t
  constructor <;> exact Or.inl ⟨rfl, rfl⟩

theorem Cabinet_put_eq (t : Bytes) (it : Item) (s : KV) :
    Cabinet.put t it s =
      atomicAdd (countKey t) (toLE 8 1)
        (atomicAdd (sizeKey t) (toLE 8 it.asBytes.length)
          (setKV (dataKey t it.key) it.asBytes s)) := rfl

theorem Inv_put (t : Bytes) (it : Item) (s : KV) (hInv : Inv s) (hwf : ItemWf it)
    (hfresh : lookupKV (dataKey t it.key) s = none) : Inv (Cabinet.put t it s) := by
  obtain ⟨hK, hD, hC⟩ := hInv
  rw [Cabinet_put_eq]
  set s1 := setKV (dataKey t it.key) it.asBytes s with hs1
  set s2 := atomicAdd (sizeKey t) (toLE 8 it.asBytes.length) s1 with hs2
  set s3 := atomicAdd (countKey t) (toLE 8 1) s2 with hs3
  refine ⟨?_, ?_, ?_⟩
  · rw [hs3, hs2, hs1]
    exact KeysOk_atomicAdd _ _ _ (KeysOk_atomicAdd _ _ _ (KeysOk_set _ _ _ hK))
  · -- DataOk
    intro e he t0 k0 hdec
    rw [hs3] at he
    rcases mem_atomicAdd _ _ _ _ he with h1 | he
    · rw [h1, decodeDataKey_countKey] at hdec
      exact absurd hdec (by simp)
    rw [hs2] at he
    rcases mem_atomicAdd _ _ _ _ he with h1 | he
    · rw [h1, decodeDataKey_sizeKey] at hdec
      exact absurd hdec (by simp)
    rw [hs1] at he
    rcases mem_setKV _ _ _ _ he with h1 | he
    · subst h1
      simp only at hdec ⊢
      by_cases ht0 : t0 = t
      · subst ht0
        rw [decodeDataKey_dataKey] at hdec
        have hk0 : k0 = it.key := by injection hdec with hh; exact hh.symm
        exact ⟨it, hwf, hk0.symm, rfl⟩
      · rw [decodeDataKey_dataKey_ne t0 t it.key (fun hh => ht0 hh.symm)] at hdec
        exact absurd hdec (by simp)
    · exact hD e he t0 k0 hdec
  · -- counters
    intro t0
    by_cases ht0 : t0 = t
    · subst ht0
      -- counts through the three writes
      have hc1 : countData t0 s1 = 1 + countData t0 s := by
        rw [hs1, setKV, countData, decodeDataKey_dataKey,
          eraseKV_of_lookup_none _ _ hfresh]
        simp
      have hz1 : sizeData t0 s1 = it.asBytes.length + sizeData t0 s := by
        rw [hs1, setKV, sizeData, decodeDataKey_dataKey,
          eraseKV_of_lookup_none _ _ hfresh]
        simp
      have hc3 : countData t0 s3 = countData t0 s + 1 := by
        rw [hs3, countData_atomicAdd_of_none _ _ _ _ (decodeDataKey_countKey t0 t0),
          hs2, countData_atomicAdd_of_none _ _ _ _ (decodeDataKey_sizeKey t0 t0), hc1]
        omega
      have hz3 : sizeData t0 s3 = sizeData t0 s + it.asBytes.length := by
        rw [hs3, sizeData_atomicAdd_of_none _ _ _ _ (decodeDataKey_countKey t0 t0),
          hs2, sizeData_atomicAdd_of_none _ _ _ _ (decodeDataKey_sizeKey t0 t0), hz1]
        omega
      constructor
      · -- headcount counter
        right
        have hmid : counterOk (countKey t0) (countData t0 s) s2 := by
          unfold counterOk
          rw [hs2, lookup_atomicAdd_ne _ _ _ _ (fun hh => countKey_ne_sizeKey t0 t0 hh),
            hs1, lookupKV_set_ne _ _ _ _ (fun hh => dataKey_ne_countKey t0 t0 it.key hh.symm)]
          exact (hC t0).1
        have hadd := counterOk_add (countKey t0) (countData t0 s) 1 s2 hmid
        rw [← hs3] at hadd
        rw [hadd, hc3]
      · -- size counter
        right
        have hmid : counterOk (sizeKey t0) (sizeData t0 s) s1 := by
          unfold counterOk
          rw [hs1, lookupKV_set_ne _ _ _ _ (fun hh => dataKey_ne_sizeKey t0 t0 it.key hh.symm)]
          exact (hC t0).2
        have hadd := counterOk_add (sizeKey t0) (sizeData t0 s) it.asBytes.length s1 hmid
        rw [← hs2] at hadd
        have hlz3 : lookupKV (sizeKey t0) s3 = lookupKV (sizeKey t0) s2 := by
          rw [hs3]
          exact lookup_atomicAdd_ne _ _ _ _ (fun hh => countKey_ne_sizeKey t0 t0 hh.symm)
        rw [hlz3, hadd, hz3]
    · -- other tenants untouched
      have hdec_dk : decodeDataKey t0 (dataKey t it.key) = none :=
        decodeDataKey_dataKey_ne t0 t it.key (fun hh => ht0 hh.symm)
      have hcn : countData t0 s3 = countData t0 s := by
        rw [hs3, countData_atomicAdd_of_none _ _ _ _ (decodeDataKey_countKey t0 t),
          hs2, countData_atomicAdd_of_none _ _ _ _ (decodeDataKey_sizeKey t0 t),
          hs1, countData_set_of_none _ _ _ _ hdec_dk]
      have hsn : sizeData t0 s3 = sizeData t0 s := by
        rw [hs3, sizeData_atomicAdd_of_none _ _ _ _ (decodeDataKey_countKey t0 t),
          hs2, sizeData_atomicAdd_of_none _ _ _ _ (decodeDataKey_sizeKey t0 t),
          hs1, sizeData_set_of_none _ _ _ _ hdec_dk]
      have hlc : lookupKV (countKey t0) s3 = lookupKV (countKey t0) s := by
        rw [hs3, lookup_atomicAdd_ne _ _ _ _ (fun hh => ht0 (countKey_inj t0 t hh)),
          hs2, lookup_atomicAdd_ne _ _ _ _ (fun hh => countKey_ne_sizeKey t0 t hh),
          hs1, lookupKV_set_ne _ _ _ _ (fun hh => dataKey_ne_countKey t t0 it.key hh.symm)]
      have hlz : lookupKV (sizeKey t0) s3 = lookupKV (sizeKey t0) s := by
        rw [hs3, lookup_atomicAdd_ne _ _ _ _ (fun hh => countKey_ne_sizeKey t t0 hh.symm),
          hs2, lookup_atomicAdd_ne _ _ _ _ (fun hh => ht0 (sizeKey_inj t0 t hh)),
          hs1, lookupKV_set_ne _ _ _ _ (fun hh => dataKey_ne_sizeKey t t0 it.key hh.symm)]
      constructor
      · unfold counterOk
        rw [hcn, hlc]
        exact (hC t0).1
      · unfold counterOk
        rw [hsn, hlz]
        exact (hC t0).2

theorem Cabinet_get_none (t k : Bytes) (s : KV)
    (hl : lookupKV (dataKey t k) s = none) : Cabinet.get t k s = .ok none := by
  unfold Cabinet.get
  rw [hl]

theorem Cabinet_get_some (t k : Bytes) (s : KV) (raw : Bytes) (it : Item)
    (hl : lookupKV (dataKey t k) s = some raw)
    (hfb : Item.fromBytes raw = some it) : Cabinet.get t k s = .ok (some it) := by
  unfold Cabinet.get
  rw [hl]
  simp [hfb]

theorem Cabinet_get_bad (t k : Bytes) (s : KV) (raw : Bytes)
    (hl : lookupKV (dataKey t k) s = some raw)
    (hfb : Item.fromBytes raw = none) : Cabinet.get t k s = .error .deserialization := by
  unfold Cabinet.get
  rw [hl]
  simp [hfb]

theorem Cabinet_delete_none (t k : Bytes) (s : KV)
    (hl : lookupKV (dataKey t k) s = none) :
    Cabinet.delete t k s = .ok (none, s) := by
  unfold Cabinet.delete
  rw [Cabinet_get_none t k s hl]

theorem Cabinet_delete_some (t k : Bytes) (s : KV) (raw : Bytes) (it : Item)
    (hl : lookupKV (dataKey t k) s = some raw)
    (hfb : Item.fromBytes raw = some it) :
    Cabinet.delete t k s = .ok (some it,
      atomicAdd (countKey t) (toLE 8 (2 ^ 64 - 1))
        (atomicAdd (sizeKey t)
          (toLE 8 ((2 ^ 64 - it.asBytes.length % 2 ^ 64) % 2 ^ 64))
          (eraseKV (dataKey t k) s))) := by
  unfold Cabinet.delete
  rw [Cabinet_get_some t k s raw it hl hfb]

theorem Cabinet_delete_bad (t k : Bytes) (s : KV) (raw : Bytes)
    (hl : lookupKV (dataKey t k) s = some raw)
    (hfb : Item.fromBytes raw = none) :
    Cabinet.delete t k s = .error .deserialization := by
  unfold Cabinet.delete
  rw [Cabinet_get_bad t k s raw hl hfb]

theorem countData_pos (t k raw : Bytes) (s : KV)
    (hl : lookupKV (dataKey t k) s = some raw) : 1 ≤ countData t s := by
  induction s with
  | nil => simp [lookupKV] at hl
  | cons e s ih =>
    rw [lookupKV] at hl
    by_cases he : e.1 = dataKey t k
    · rw [countData, he, decodeDataKey_dataKey]
      simp
    · rw [if_neg he] at hl
      rw [countData]
      have := ih hl
      omega

theorem Inv_del (t k : Bytes) (s s' : KV) (r : Option Item) (hInv : Inv s)
    (h : Cabinet.delete t k s = .ok (r, s')) : Inv s' := by
  obtain ⟨hK, hD, hC⟩ := hInv
  cases hl : lookupKV (dataKey t k) s with
  | none =>
    rw [Cabinet_delete_none t k s hl] at h
    injection h with hpair
    injection hpair with hr hs
    rw [← hs]
    exact ⟨hK, hD, hC⟩
  | some raw =>
    cases hfb : Item.fromBytes raw with
    | none =>
      rw [Cabinet_delete_bad t k s raw hl hfb] at h
      exact absurd h (by simp)
    | some it =>
      rw [Cabinet_delete_some t k s raw it hl hfb] at h
      injection h with hpair
      injection hpair with hr hs
      rw [← hs]
      -- recover the integrity facts about the deleted blob
      obtain ⟨it0, hwf0, hk0, hraw0⟩ :=
        hD (dataKey t k, raw) (mem_of_lookupKV _ _ _ hl) t k (by
          simp only
          exact decodeDataKey_dataKey t k)
      simp only at hraw0
      have hit : it0 = it := by
        rw [hraw0, Item.fromBytes_asBytes it0 hwf0] at hfb
        injection hfb
      subst hit
      set s1 := eraseKV (dataKey t k) s with hs1
      set s2 := atomicAdd (sizeKey t)
        (toLE 8 ((2 ^ 64 - it0.asBytes.length % 2 ^ 64) % 2 ^ 64)) s1 with hs2
      set s3 := atomicAdd (countKey t) (toLE 8 (2 ^ 64 - 1)) s2 with hs3
      have hcount_s : countData t s = 1 + countData t s1 := by
        rw [hs1]
        exact countData_erase_of_data t _ k raw s hK hl (decodeDataKey_dataKey t k)
      have hsize_s : sizeData t s = raw.length + sizeData t s1 := by
        rw [hs1]
        exact sizeData_erase_of_data t _ k raw s hK hl (decodeDataKey_dataKey t k)
      refine ⟨?_, ?_, ?_⟩
      · rw [hs3, hs2, hs1]
        exact KeysOk_atomicAdd _ _ _ (KeysOk_atomicAdd _ _ _ (KeysOk_erase _ _ hK))
      · intro e he t0 k0 hdec
        rw [hs3] at he
        rcases mem_atomicAdd _ _ _ _ he with h1 | he
        · rw [h1, decodeDataKey_countKey] at hdec
          exact absurd hdec (by simp)
        rw [hs2] at he
        rcases mem_atomicAdd _ _ _ _ he with h1 | he
        · rw [h1, decodeDataKey_sizeKey] at hdec
          exact absurd hdec (by simp)
        rw [hs1] at he
        exact hD e ((eraseKV_sublist _ _).subset he) t0 k0 hdec
      · intro t0
        by_cases ht0 : t0 = t
        · subst ht0
          have hc3 : countData t0 s3 = countData t0 s1 := by
            rw [hs3, countData_atomicAdd_of_none _ _ _ _ (decodeDataKey_countKey t0 t0),
              hs2, countData_atomicAdd_of_none _ _ _ _ (decodeDataKey_sizeKey t0 t0)]
          have hz3 : sizeData t0 s3 = sizeData t0 s1 := by
            rw [hs3, sizeData_atomicAdd_of_none _ _ _ _ (decodeDataKey_countKey t0 t0),
              hs2, sizeData_atomicAdd_of_none _ _ _ _ (decodeDataKey_sizeKey t0 t0)]
          constructor
          · right
            have hmid : counterOk (countKey t0) (countData t0 s) s2 := by
              unfold counterOk
              rw [hs2, lookup_atomicAdd_ne _ _ _ _ (fun hh => countKey_ne_sizeKey t0 t0 hh),
                hs1, lookupKV_erase_ne _ _ _ (fun hh => dataKey_ne_countKey t0 t0 k hh.symm)]
              exact (hC t0).1
            have hadd := counterOk_add (countKey t0) (countData t0 s) (2 ^ 64 - 1) s2 hmid
            rw [← hs3] at hadd
            have harith : (countData t0 s + (2 ^ 64 - 1)) % 2 ^ 64 =
                countData t0 s1 % 2 ^ 64 := by
              omega
            rw [hadd, hc3, harith]
          · right
            have hmid : counterOk (sizeKey t0) (sizeData t0 s) s1 := by
              unfold counterOk
              rw [hs1, lookupKV_erase_ne _ _ _ (fun hh => dataKey_ne_sizeKey t0 t0 k hh.symm)]
              exact (hC t0).2
            have hadd := counterOk_add (sizeKey t0) (sizeData t0 s)
              ((2 ^ 64 - it0.asBytes.length % 2 ^ 64) % 2 ^ 64) s1 hmid
            rw [← hs2] at hadd
            have hlz3 : lookupKV (sizeKey t0) s3 = lookupKV (sizeKey t0) s2 := by
              rw [hs3]
              exact lookup_atomicAdd_ne _ _ _ _ (fun hh => countKey_ne_sizeKey t0 t0 hh.symm)
            have hlen : raw.length = it0.asBytes.length := by rw [hraw0]
            have harith : (sizeData t0 s +
                (2 ^ 64 - it0.asBytes.length % 2 ^ 64) % 2 ^ 64) % 2 ^ 64 =
                sizeData t0 s1 % 2 ^ 64 := by
              rw [hlen] at hsize_s
              omega
            rw [hlz3, hadd, hz3, harith]
        · have hdec_dk : decodeDataKey t0 (dataKey t k) = none :=
            decodeDataKey_dataKey_ne t0 t k (fun hh => ht0 hh.symm)
          have hcn : countData t0 s3 = countData t0 s := by
            rw [hs3, countData_atomicAdd_of_none _ _ _ _ (decodeDataKey_countKey t0 t),
              hs2, countData_atomicAdd_of_none _ _ _ _ (decodeDataKey_sizeKey t0 t),
              hs1, countData_erase_of_none _ _ _ hdec_dk]
          have hsn : sizeData t0 s3 = sizeData t0 s := by
            rw [hs3, sizeData_atomicAdd_of_none _ _ _ _ (decodeDataKey_countKey t0 t),
              hs2, sizeData_atomicAdd_of_none _ _ _ _ (decodeDataKey_sizeKey t0 t),
              hs1, sizeData_erase_of_none _ _ _ hdec_dk]
          have hlc : lookupKV (countKey t0) s3 = lookupKV (countKey t0) s := by
            rw [hs3, lookup_atomicAdd_ne _ _ _ _ (fun hh => ht0 (countKey_inj t0 t hh)),
              hs2, lookup_atomicAdd_ne _ _ _ _ (fun hh => countKey_ne_sizeKey t0 t hh),
              hs1, lookupKV_erase_ne _ _ _ (fun hh => dataKey_ne_countKey t t0 k hh.symm)]
          have hlz : lookupKV (sizeKey t0) s3 = lookupKV (sizeKey t0) s := by
            rw [hs3, lookup_atomicAdd_ne _ _ _ _ (fun hh => countKey_ne_sizeKey t t0 hh.symm),
              hs2, lookup_atomicAdd_ne _ _ _ _ (fun hh => ht0 (sizeKey_inj t0 t hh)),
              hs1, lookupKV_erase_ne _ _ _ (fun hh => dataKey_ne_sizeKey t t0 k hh.symm)]
          constructor
          · unfold counterOk
            rw [hcn, hlc]
            exact (hC t0).1
          · unfold counterOk
            rw [hsn, hlz]
            exact (hC t0).2

theorem Cabinet_clear_eq (t : Bytes) (s : KV) :
    Cabinet.clear t s =
      eraseKV (countKey t) (eraseKV (sizeKey t)
        (clearRangeKV (dataLo t) (dataHi t) s)) := rfl

theorem Inv_clear (t : Bytes) (s : KV) (hInv : Inv s) : Inv (Cabinet.clear t s) := by
  obtain ⟨hK, hD, hC⟩ := hInv
  rw [Cabinet_clear_eq]
  set s1 := clearRangeKV (dataLo t) (dataHi t) s with hs1
  set s2 := eraseKV (sizeKey t) s1 with hs2
  set s3 := eraseKV (countKey t) s2 with hs3
  refine ⟨?_, ?_, ?_⟩
  · rw [hs3, hs2, hs1]
    exact KeysOk_erase _ _ (KeysOk_erase _ _ (KeysOk_clearRange _ _ _ hK))
  · intro e he t0 k0 hdec
    rw [hs3] at he
    have he2 := (eraseKV_sublist _ _).subset he
    rw [hs2] at he2
    have he3 := (eraseKV_sublist _ _).subset he2
    rw [hs1] at he3
    exact hD e ((clearRangeKV_sublist _ _ _).subset he3) t0 k0 hdec
  · intro t0
    by_cases ht0 : t0 = t
    · subst ht0
      have hc3 : countData t0 s3 = 0 := by
        rw [hs3, countData_erase_of_none _ _ _ (decodeDataKey_countKey t0 t0),
          hs2, countData_erase_of_none _ _ _ (decodeDataKey_sizeKey t0 t0),
          hs1, countData_clearRange_self]
      have hz3 : sizeData t0 s3 = 0 := by
        rw [hs3, sizeData_erase_of_none _ _ _ (decodeDataKey_countKey t0 t0),
          hs2, sizeData_erase_of_none _ _ _ (decodeDataKey_sizeKey t0 t0),
          hs1, sizeData_clearRange_self]
      constructor
      · left
        refine ⟨?_, hc3⟩
        rw [hs3]
        exact lookupKV_erase_self _ _
      · left
        refine ⟨?_, hz3⟩
        rw [hs3, lookupKV_erase_ne _ _ _ (fun hh => countKey_ne_sizeKey t0 t0 hh.symm),
          hs2]
        exact lookupKV_erase_self _ _
    · have hcn : countData t0 s3 = countData t0 s := by
        rw [hs3, countData_erase_of_none _ _ _ (decodeDataKey_countKey t0 t),
          hs2, countData_erase_of_none _ _ _ (decodeDataKey_sizeKey t0 t),
          hs1, countData_clearRange_other t t0 s ht0]
      have hsn : sizeData t0 s3 = sizeData t0 s := by
        rw [hs3, sizeData_erase_of_none _ _ _ (decodeDataKey_countKey t0 t),
          hs2, sizeData_erase_of_none _ _ _ (decodeDataKey_sizeKey t0 t),
          hs1, sizeData_clearRange_other t t0 s ht0]
      have hlc : lookupKV (countKey t0) s3 = lookupKV (countKey t0) s := by
        rw [hs3, lookupKV_erase_ne _ _ _ (fun hh => ht0 (countKey_inj t0 t hh)),
          hs2, lookupKV_erase_ne _ _ _ (fun hh => countKey_ne_sizeKey t0 t hh),
          hs1, lookupKV_clearRange, countKey_not_in_range t t0]
        simp
      have hlz : lookupKV (sizeKey t0) s3 = lookupKV (sizeKey t0) s := by
        rw [hs3, lookupKV_erase_ne _ _ _ (fun hh => countKey_ne_sizeKey t t0 hh.symm),
          hs2, lookupKV_erase_ne _ _ _ (fun hh => ht0 (sizeKey_inj t0 t hh)),
          hs1, lookupKV_clearRange, sizeKey_not_in_range t t0]
        simp
      constructor
      · unfold counterOk
        rw [hcn, hlc]
        exact (hC t0).1
      · unfold counterOk
        rw [hsn, hlz]
        exact (hC t0).2

/-- Every reachable store satisfies the stats invariant. -/
theorem Reach_Inv (s : KV) (h : Reach s) : Inv s := by
  induction h with
  | nil => exact Inv_nil
  | put _ hwf hfresh ih => exact Inv_put _ _ _ ih hwf hfresh
  | del _ hdel ih => exact Inv_del _ _ _ _ _ ih hdel
  | clr _ ih => exact Inv_clear _ _ ih

/-!
The connection handler of `src/server.rs`: per-connection state, responses,
and the dispatch of parsed commands. `handle_requests` routes `Auth`,
`Unknown` and `Quit` to `handle_requests_non_authenticated` and everything
else to `handle_authenticated_requests`, which enforces the auth gate and
runs the command inside `with_tenant`. An error returned by a command
propagates out of `handle_requests` (the `?` operators), so the run stops
and nothing is written for the failing command.
-/

/-- Parsed protocol commands (`cabinet-protocol`); the `auth` tenant is
kept as raw bytes, UTF-8 validity being established by the parser. -/
inductive Cmd where
  | auth (tenant : Bytes)
  | put (key value : Bytes)
  | get (key : Bytes)
  | delete (key : Bytes)
  | clear
  | stats
  | quit
  | unknown
  deriving DecidableEq

def Cmd.isData : Cmd → Bool
  | .put _ _ | .get _ | .delete _ | .clear | .stats => true
  | _ => false

/-- Per-connection state (`src/state.rs`). -/
structure ConnState where
  tenant : Option Bytes
  authenticated : Bool
  deriving DecidableEq

/-- UTF-8 decoding with exactly the acceptance conditions of Rust's
`std::str::from_utf8`: 2-byte lead bytes `C2..DF`, 3-byte `E0 A0..BF`,
`E1..EC 80..BF`, `ED 80..9F` (no surrogates), `EE..EF 80..BF`, 4-byte
`F0 90..BF`, `F1..F3 80..BF`, `F4 80..8F`, continuations `80..BF`. -/
def utf8Decode : Bytes → Option (List Char)
  | [] => some []
  | b :: r =>
    if b.val < 0x80 then (utf8Decode r).map (Char.ofNat b.val :: ·)
    else if b.val < 0xC2 then none
    else if b.val < 0xE0 then
      match r with
      | b1 :: r1 =>
        if 0x80 ≤ b1.val ∧ b1.val < 0xC0 then
          (utf8Decode r1).map
            (Char.ofNat ((b.val - 0xC0) * 64 + (b1.val - 0x80)) :: ·)
        else none
      | [] => none
    else if b.val < 0xF0 then
      match r with
      | b1 :: b2 :: r2 =>
        if (if b.val = 0xE0 then 0xA0 ≤ b1.val ∧ b1.val < 0xC0
            else if b.val = 0xED then 0x80 ≤ b1.val ∧ b1.val < 0xA0
            else 0x80 ≤ b1.val ∧ b1.val < 0xC0) ∧
            0x80 ≤ b2.val ∧ b2.val < 0xC0 then
          (utf8Decode r2).map
            (Char.ofNat ((b.val - 0xE0) * 4096 + (b1.val - 0x80) * 64 +
              (b2.val - 0x80)) :: ·)
        else none
      | _ => none
    else if b.val < 0xF5 then
      match r with
      | b1 :: b2 :: b3 :: r3 =>
        if (if b.val = 0xF0 then 0x90 ≤ b1.val ∧ b1.val < 0xC0
            else if b.val = 0xF4 then 0x80 ≤ b1.val ∧ b1.val < 0x90
            else 0x80 ≤ b1.val ∧ b1.val < 0xC0) ∧
            0x80 ≤ b2.val ∧ b2.val < 0xC0 ∧ 0x80 ≤ b3.val ∧ b3.val < 0xC0 then
          (utf8Decode r3).map
            (Char.ofNat ((b.val - 0xF0) * 262144 + (b1.val - 0x80) * 4096 +
              (b2.val - 0x80) * 64 + (b3.val - 0x80)) :: ·)
        else none
      | _ => none
    else none

/-- The `Response` enum of `src/server.rs`. -/
inductive Resp where
  | ok
  | error (msg : String)
  | authRequired
  | value (v : String)
  | stats (count size : Int)
  | nil
  deriving DecidableEq

/-- `Response::to_bytes`, as the UTF-8 string written to the socket. -/
def Resp.wire : Resp → String
  | .ok => "OK\n"
  | .error m => "ERROR " ++ m ++ "\n"
  | .authRequired => "AUTHREQUIRED: perform auth <tenant> first\n"
  | .value v => "VALUE " ++ toString v.utf8ByteSize ++ "\n" ++ v ++ "\n"
  | .stats c z =>
    "STATS cardinality: " ++ toString c ++ " storage:" ++ toString z ++ " bytes\n"
  | .nil => "NIL\n"

/-- The body of the `with_tenant` closure in
`handle_authenticated_requests` (`src/server.rs` lines 265-300); `stats`
reads the size before the count, and a stored value that is not valid
UTF-8 is the error `CabinetError::Utf8Error`. -/
def execData (t : Bytes) (c : Cmd) (s : KV) : Except CabErr (Resp × KV) :=
  match c with
  | .put k v => .ok (.ok, Cabinet.put t ⟨k, v⟩ s)
  | .get k =>
    match Cabinet.get t k s with
    | .error e => .error e
    | .ok none => .ok (.nil, s)
    | .ok (some it) =>
      match utf8Decode it.value with
      | none => .error .utf8Error
      | some cs => .ok (.value (String.mk cs), s)
  | .delete k =>
    match Cabinet.delete t k s with
    | .error e => .error e
    | .ok (none, s') => .ok (.nil, s')
    | .ok (some _, s') => .ok (.ok, s')
  | .clear => .ok (.ok, Cabinet.clear t s)
  | .stats =>
    match getSize t s with
    | .error e => .error e
    | .ok z =>
      match getCount t s with
      | .error e => .error e
      | .ok c => .ok (.stats c z, s)
  | _ => .error .unreachableBranch

/-- Dispatch of one command (`handle_requests` plus the two handlers):
the responses written for it, and either the next connection state and
store, or the error that aborts `handle_requests`. -/
def stepCmd (st : ConnState) (s : KV) (c : Cmd) :
    List Resp × Except CabErr (ConnState × KV) :=
  match c with
  | .auth t =>
    if t ≠ [] then ([.ok], .ok (⟨some t, true⟩, s))
    else ([.error ("Authentication failed")], .ok (st, s))
  | .unknown => ([.error ("Unknown command")], .ok (st, s))
  | .quit => ([.ok], .ok (st, s))
  | c =>
    if st.authenticated = false then ([.authRequired], .ok (st, s))
    else
      match st.tenant with
      | none => ([.authRequired], .ok (st, s))
      | some t =>
        match execData t c s with
        | .error e => ([], .error e)
        | .ok (r, s') => ([r], .ok (st, s'))

/-- Process the commands of one read buffer in order; an error stops the
loop (the connection handler then terminates the connection). -/
def runCmds (st : ConnState) (s : KV) :
    List Cmd → List Resp × Except CabErr (ConnState × KV)
  | [] => ([], .ok (st, s))
  | c :: cs =>
    match stepCmd st s c with
    | (out, .error e) => (out, .error e)
    | (out, .ok (st', s')) =>
      let p := runCmds st' s' cs
      (out ++ p.1, p.2)

/-- The reply an unauthenticated connection receives for each command. -/
def gateReply : Cmd → Resp
  | .auth t => if t ≠ [] then .ok else .error ("Authentication failed")
  | .unknown => .error ("Unknown command")
  | .quit => .ok
  | _ => .authRequired

/-!
The protocol parser (`cabinet-protocol`). Keywords are matched
case-insensitively at the current position; `data` is the content of the
next double-quoted group, found by scanning ahead; `Whitespaces` demands at
least one ASCII whitespace and consumes the run; `Unknown` consumes up to
and including the next ASCII whitespace (or everything, when there is
none). The behaviour of the external `elyze` scanner combinators is pinned
by the crate's own unit tests in `commands/mod.rs` (`test_command`,
`test_command_iterator`), which this embedding reproduces exactly.
-/

/-- `u8::is_ascii_whitespace`. -/
def isWsB (b : Byte) : Bool :=
  b.val = 0x20 || b.val = 0x09 || b.val = 0x0A || b.val = 0x0C || b.val = 0x0D

def toLowerB (b : Byte) : Byte :=
  if h : 0x41 ≤ b.val ∧ b.val ≤ 0x5A then ⟨b.val + 0x20, by omega⟩ else b

/-- Case-insensitive keyword match at the current position. -/
def ciPrefix : Bytes → Bytes → Bool
  | [], _ => true
  | _ :: _, [] => false
  | kb :: kr, b :: r => toLowerB b = kb && ciPrefix kr r

def skipWs : Bytes → Bytes
  | [] => []
  | b :: r => if isWsB b then skipWs r else b :: r

/-- `Whitespaces::accept`: at least one whitespace, consuming the run. -/
def ws1 : Bytes → Option Bytes
  | [] => none
  | b :: r => if isWsB b then some (skipWs r) else none

def dropToQuote : Bytes → Option Bytes
  | [] => none
  | b :: r => if b.val = 0x22 then some r else dropToQuote r

def takeToQuote : Bytes → Option (Bytes × Bytes)
  | [] => none
  | b :: r =>
    if b.val = 0x22 then some ([], r)
    else (takeToQuote r).map (fun p => (b :: p.1, p.2))

/-- `Data::accept`: the bytes between the next pair of double quotes. -/
def dataAccept (l : Bytes) : Option (Bytes × Bytes) :=
  (dropToQuote l).bind takeToQuote

/-- `Unknown::accept`: consume up to and including the next whitespace,
or the whole input when none occurs. -/
def unknownSplit : Bytes → Bytes
  | [] => []
  | b :: r => if isWsB b then r else unknownSplit r

def kwAuth : Bytes := [0x61, 0x75, 0x74, 0x68]

def kwPut : Bytes := [0x70, 0x75, 0x74]

def kwGet : Bytes := [0x67, 0x65, 0x74]

def kwDelete : Bytes := [0x64, 0x65, 0x6C, 0x65, 0x74, 0x65]

def kwClear : Bytes := [0x63, 0x6C, 0x65, 0x61, 0x72]

def kwStats : Bytes := [0x73, 0x74, 0x61, 0x74, 0x73]

def kwQuit : Bytes := [0x71, 0x75, 0x69, 0x74]

/-- `Auth::accept`: keyword, whitespace, quoted data, `str::from_utf8`
on the tenant bytes (a UTF-8 failure is a parse error), optional
whitespace. -/
def tryAuth (l : Bytes) : Option (Cmd × Bytes) :=
  if ciPrefix kwAuth l then
    (ws1 (l.drop 4)).bind fun l2 =>
      (dataAccept l2).bind fun p =>
        match utf8Decode p.1 with
        | none => none
        | some _ => some (Cmd.auth p.1, skipWs p.2)
  else none

def tryGet (l : Bytes) : Option (Cmd × Bytes) :=
  if ciPrefix kwGet l then
    (ws1 (l.drop 3)).bind fun l2 =>
      (dataAccept l2).map fun p => (Cmd.get p.1, skipWs p.2)
  else none

def tryPut (l : Bytes) : Option (Cmd × Bytes) :=
  if ciPrefix kwPut l then
    (ws1 (l.drop 3)).bind fun l2 =>
      (dataAccept l2).bind fun p =>
        (ws1 p.2).bind fun l3 =>
          (dataAccept ((skipWs l3))).map fun q => (Cmd.put p.1 q.1, skipWs q.2)
  else none

def tryDelete (l : Bytes) : Option (Cmd × Bytes) :=
  if ciPrefix kwDelete l then
    (ws1 (l.drop 6)).bind fun l2 =>
      (dataAccept l2).map fun p => (Cmd.delete p.1, skipWs p.2)
  else none

def tryClear (l : Bytes) : Option (Cmd × Bytes) :=
  if ciPrefix kwClear l then some (Cmd.clear, skipWs (l.drop 5)) else none

def tryStats (l : Bytes) : Option (Cmd × Bytes) :=
  if ciPrefix kwStats l then some (Cmd.stats, skipWs (l.drop 5)) else none

def tryQuit (l : Bytes) : Option (Cmd × Bytes) :=
  if ciPrefix kwQuit l then some (Cmd.quit, skipWs (l.drop 4)) else none

/-- `recognize(Token::Ln)` after an accepted command. -/
def lnSkip (l : Bytes) : Bytes :=
  match l with
  | b :: r => if b.val = 0x0A then r else l
  | [] => []

/-- `Unknown::accept` as an alternative (always succeeds). -/
def tryUnknown (l : Bytes) : Option (Cmd × Bytes) :=
  some (Cmd.unknown, unknownSplit l)

/-- `Command::accept`: the alternatives in source order, `Unknown` last. -/
def parseOne (l : Bytes) : Cmd × Bytes :=
  let r := ((((((tryAuth l).orElse fun _ => tryGet l).orElse
    fun _ => tryPut l).orElse fun _ => tryDelete l).orElse
    fun _ => tryClear l).orElse fun _ => tryStats l).orElse fun _ => tryQuit l
  match r with
  | some p => (p.1, lnSkip p.2)
  | none =>
    match tryUnknown l with
    | some p => (p.1, lnSkip p.2)
    | none => (Cmd.unknown, [])

def parseCmds : Nat → Bytes → List Cmd
  | 0, _ => []
  | fuel + 1, l =>
    if l = [] then []
    else
      let p := parseOne l
      p.1 :: parseCmds fuel p.2

/-- The `Commands` iterator over one read buffer, collected. -/
def parseCommands (l : Bytes) : List Cmd := parseCmds (l.length + 1) l

/-! Helper lemmas shared by the claim theorems. -/

theorem counterRead_elim (ctr : Bytes) (s : KV) (c : Int)
    (h : counterRead ctr s = .ok c) :
    ∃ n0 : Nat, n0 < 2 ^ 64 ∧ toInt64 n0 = c ∧
      natOfLE (((lookupKV ctr s).getD []).take 8) = n0 := by
  unfold counterRead at h
  cases hl : lookupKV ctr s with
  | none =>
    rw [hl] at h
    replace h : (Except.ok 0 : Except CabErr Int) = .ok c := h
    injection h with h
    refine ⟨0, by norm_num, ?_, rfl⟩
    rw [← h]
    decide
  | some v =>
    rw [hl] at h
    replace h : (if v.length = 8 then (Except.ok (toInt64 (natOfLE v)) : Except CabErr Int)
        else .error .invalidCountStatsValue) = .ok c := h
    by_cases hv : v.length = 8
    · rw [if_pos hv] at h
      injection h with h
      refine ⟨natOfLE v, ?_, h, ?_⟩
      · have hlt := natOfLE_lt v
        rw [hv, pow256_8] at hlt
        exact hlt
      · simp only [Option.getD_some]
        have ht : v.take 8 = v := by
          rw [← hv]
          exact List.take_length v
        rw [ht]
    · rw [if_neg hv] at h
      exact absurd h (by simp)

theorem counterRead_of_value (ctr : Bytes) (s : KV) (x : Nat)
    (hl : lookupKV ctr s = some (toLE 8 x)) :
    counterRead ctr s = .ok (toInt64 (x % 2 ^ 64)) := by
  unfold counterRead
  rw [hl]
  show (if (toLE 8 x).length = 8 then (Except.ok (toInt64 (natOfLE (toLE 8 x))) : Except CabErr Int)
    else .error .invalidCountStatsValue) = _
  rw [if_pos (length_toLE 8 x), natOfLE_toLE8]

/-- `lookupKV` after an 8-byte atomic add on the same key. -/
theorem lookup_add8 (ctr : Bytes) (d : Nat) (s : KV) :
    lookupKV ctr (atomicAdd ctr (toLE 8 d) s) =
      some (toLE 8 ((natOfLE (((lookupKV ctr s).getD []).take 8) + d % 2 ^ 64)
        % 2 ^ 64)) := by
  unfold atomicAdd
  rw [length_toLE, lookupKV_set_self, natOfLE_toLE8, pow256_8]

/-- Signed interpretation of a wrap-around subtraction: adding the two's
complement of `d` and reading back as `i64` subtracts `d`, provided the
result does not underflow the signed range. -/
theorem toInt64_sub_general (n d : Nat) (hn : n < 2 ^ 64) (hd : d < 2 ^ 63)
    (hlow : -(2 ^ 63 : Int) ≤ toInt64 n - d) :
    toInt64 ((n + (2 ^ 64 - d % 2 ^ 64) % 2 ^ 64) % 2 ^ 64) = toInt64 n - d := by
  unfold toInt64 at hlow ⊢
  split_ifs at hlow ⊢ <;> omega

theorem toInt64_small (n : Nat) (h : n < 2 ^ 63) : toInt64 n = (n : Int) := by
  unfold toInt64
  rw [if_pos h]

/-- The keys the specification counts as belonging to tenant `t`. -/
def tenantKey (t key : Bytes) : Prop :=
  (∃ k, key = dataKey t k) ∨ key = countKey t ∨ key = sizeKey t

theorem tenantKey_ne_dataKey (t t' k key : Bytes) (hne : t' ≠ t)
    (h : tenantKey t' key) : key ≠ dataKey t k := by
  rcases h with ⟨k', hk⟩ | hk | hk <;> subst hk <;> intro hh
  · exact hne (dataKey_inj t' t k' k hh).1
  · exact dataKey_ne_countKey t t' k hh.symm
  · exact dataKey_ne_sizeKey t t' k hh.symm

theorem tenantKey_ne_countKey (t t' key : Bytes) (hne : t' ≠ t)
    (h : tenantKey t' key) : key ≠ countKey t := by
  rcases h with ⟨k', hk⟩ | hk | hk <;> subst hk <;> intro hh
  · exact dataKey_ne_countKey t' t k' hh
  · exact hne (countKey_inj t' t hh)
  · exact countKey_ne_sizeKey t t' hh.symm

theorem tenantKey_ne_sizeKey (t t' key : Bytes) (hne : t' ≠ t)
    (h : tenantKey t' key) : key ≠ sizeKey t := by
  rcases h with ⟨k', hk⟩ | hk | hk <;> subst hk <;> intro hh
  · exact dataKey_ne_sizeKey t' t k' hh
  · exact countKey_ne_sizeKey t' t hh
  · exact hne (sizeKey_inj t' t hh)

theorem tenantKey_not_in_range (t t' key : Bytes) (hne : t' ≠ t)
    (h : tenantKey t' key) : inRange (dataLo t) (dataHi t) key = false := by
  rcases h with ⟨k', hk⟩ | hk | hk <;> subst hk
  · exact dataKey_not_in_range_ne t t' k' hne
  · exact countKey_not_in_range t t'
  · exact sizeKey_not_in_range t t'

/-- Frame rule for `put`: keys other than the written data key and the two
counters of `t` are untouched. -/
theorem lookup_put_frame (t : Bytes) (it : Item) (s : KV) (key : Bytes)
    (h1 : key ≠ dataKey t it.key) (h2 : key ≠ countKey t)
    (h3 : key ≠ sizeKey t) :
    lookupKV key (Cabinet.put t it s) = lookupKV key s := by
  rw [Cabinet_put_eq, lookup_atomicAdd_ne _ _ _ _ h2,
    lookup_atomicAdd_ne _ _ _ _ h3, lookupKV_set_ne _ _ _ _ h1]

/-- Frame rule for `clear`: keys outside the cleared data range and other
than the two counters of `t` are untouched. -/
theorem lookup_clear_frame (t : Bytes) (s : KV) (key : Bytes)
    (h2 : key ≠ countKey t) (h3 : key ≠ sizeKey t)
    (hr : inRange (dataLo t) (dataHi t) key = false) :
    lookupKV key (Cabinet.clear t s) = lookupKV key s := by
  rw [Cabinet_clear_eq, lookupKV_erase_ne _ _ _ h2, lookupKV_erase_ne _ _ _ h3,
    lookupKV_clearRange, hr]
  simp

/-- Frame rule for `delete`. -/
theorem lookup_delete_frame (t k : Bytes) (s s' : KV) (r : Option Item)
    (hdel : Cabinet.delete t k s = .ok (r, s')) (key : Bytes)
    (h1 : key ≠ dataKey t k) (h2 : key ≠ countKey t) (h3 : key ≠ sizeKey t) :
    lookupKV key s' = lookupKV key s := by
  cases hl : lookupKV (dataKey t k) s with
  | none =>
    rw [Cabinet_delete_none t k s hl] at hdel
    injection hdel with hp
    injection hp with hr hs
    rw [← hs]
  | some raw =>
    cases hfb : Item.fromBytes raw with
    | none =>
      rw [Cabinet_delete_bad t k s raw hl hfb] at hdel
      exact absurd hdel (by simp)
    | some it =>
      rw [Cabinet_delete_some t k s raw it hl hfb] at hdel
      injection hdel with hp
      injection hp with hr hs
      rw [← hs, lookup_atomicAdd_ne _ _ _ _ h2, lookup_atomicAdd_ne _ _ _ _ h3,
        lookupKV_erase_ne _ _ _ h1]

/-- `get` reads only the data key of its tenant. -/
theorem get_set_other (t k key v : Bytes) (s : KV) (h : key ≠ dataKey t k) :
    Cabinet.get t k (setKV key v s) = Cabinet.get t k s := by
  unfold Cabinet.get
  rw [lookupKV_set_ne _ _ _ _ (fun hh => h hh.symm)]

theorem counterRead_set_other (ctr key v : Bytes) (s : KV) (h : key ≠ ctr) :
    counterRead ctr (setKV key v s) = counterRead ctr s := by
  unfold counterRead
  rw [lookupKV_set_ne _ _ _ _ (fun hh => h hh.symm)]

theorem unknownSplit_append_ws (w : Bytes) (hn : ∀ b ∈ w, isWsB b = false) :
    ∀ (c : Byte) (rest : Bytes), isWsB c = true →
      unknownSplit (w ++ c :: rest) = rest := by
  induction w with
  | nil =>
    intro c rest hc
    simp [unknownSplit, hc]
  | cons b w' ih =>
    intro c rest hc
    have hb : isWsB b = false := hn b (by simp)
    rw [List.cons_append, unknownSplit, hb]
    simp only [Bool.false_eq_true, if_false]
    exact ih (fun x hx => hn x (by simp [hx])) c rest hc

theorem unknownSplit_all (w : Bytes) (hn : ∀ b ∈ w, isWsB b = false) :
    unknownSplit w = [] := by
  induction w with
  | nil => rfl
  | cons b w' ih =>
    have hb : isWsB b = false := hn b (by simp)
    rw [unknownSplit, hb]
    simp only [Bool.false_eq_true, if_false]
    exact ih (fun x hx => hn x (by simp [hx]))

theorem takeToQuote_append (bs rest : Bytes) (h : ∀ b ∈ bs, b.val ≠ 0x22) :
    takeToQuote (bs ++ (0x22 : Byte) :: rest) = some (bs, rest) := by
  induction bs with
  | nil =>
    rw [List.nil_append, takeToQuote,
      if_pos (show ((0x22 : Byte)).val = 0x22 from rfl)]
  | cons b bs' ih =>
    have hb : b.val ≠ 0x22 := h b (by simp)
    rw [List.cons_append, takeToQuote, if_neg hb,
      ih (fun x hx => h x (by simp [hx]))]
    rfl

theorem tryAuth_some_valid (l : Bytes) (c : Cmd) (rest : Bytes)
    (h : tryAuth l = some (c, rest)) :
    ∃ tb cs, c = Cmd.auth tb ∧ utf8Decode tb = some cs := by
  unfold tryAuth at h
  by_cases hci : ciPrefix kwAuth l = true
  · rw [if_pos hci] at h
    cases hw : ws1 (l.drop 4) with
    | none => rw [hw] at h; simp at h
    | some l2 =>
      rw [hw] at h
      simp only [Option.some_bind] at h
      cases hd : dataAccept l2 with
      | none => rw [hd] at h; simp at h
      | some p =>
        rw [hd] at h
        simp only [Option.some_bind] at h
        cases hu : utf8Decode p.1 with
        | none => rw [hu] at h; simp at h
        | some cs =>
          rw [hu] at h
          injection h with h
          refine ⟨p.1, cs, ?_, hu⟩
          have := congrArg Prod.fst h
          simp at this
          rw [← this]
  · rw [if_neg hci] at h
    exact absurd h (by simp)

/-- Gate behaviour of a single command on an unauthenticated connection
whose buffer contains no successful authentication. -/
theorem step_gate (s : KV) (c : Cmd) (hc : ∀ t, c = Cmd.auth t → t = []) :
    stepCmd ⟨none, false⟩ s c = ([gateReply c], .ok (⟨none, false⟩, s)) := by
  cases c with
  | auth t =>
    have := hc t rfl
    subst this
    rfl
  | put k v => rfl
  | get k => rfl
  | delete k => rfl
  | clear => rfl
  | stats => rfl
  | quit => rfl
  | unknown => rfl

theorem run_gate (s : KV) (cs : List Cmd)
    (h : ∀ t, Cmd.auth t ∈ cs → t = []) :
    runCmds ⟨none, false⟩ s cs = (cs.map gateReply, .ok (⟨none, false⟩, s)) := by
  induction cs with
  | nil => rfl
  | cons c cs ih =>
    rw [runCmds, step_gate s c (fun t hh => h t (by rw [← hh]; exact List.mem_cons_self c cs))]
    simp [ih (fun t ht => h t (List.mem_cons_of_mem c ht))]

theorem counterRead_none (ctr : Bytes) (s : KV) (h : lookupKV ctr s = none) :
    counterRead ctr s = .ok 0 := by
  unfold counterRead
  rw [h]

theorem counterRead_some8 (ctr : Bytes) (s : KV) (v : Bytes)
    (h : lookupKV ctr s = some v) (h8 : v.length = 8) :
    counterRead ctr s = .ok (toInt64 (natOfLE v)) := by
  unfold counterRead
  rw [h]
  show (if v.length = 8 then (Except.ok (toInt64 (natOfLE v)) : Except CabErr Int)
    else .error .invalidCountStatsValue) = _
  rw [if_pos h8]

theorem counterRead_bad (ctr : Bytes) (s : KV) (v : Bytes)
    (h : lookupKV ctr s = some v) (h8 : v.length ≠ 8) :
    counterRead ctr s = .error .invalidCountStatsValue := by
  unfold counterRead
  rw [h]
  show (if v.length = 8 then (Except.ok (toInt64 (natOfLE v)) : Except CabErr Int)
    else .error .invalidCountStatsValue) = _
  rw [if_neg h8]

/-!
## Claim theorems
-/

/-- C1, counterexample: the claim extends the stats invariant to a `put`
whose key already exists, but `Cabinet::put` never reads the prior value
and unconditionally atomic-adds `+1` and `+len`. Putting the same item
`([107], [118])` twice under tenant `[116]` commits a headcount of 2 and a
size of 8, while the store holds exactly one data key whose blob is 4
bytes, so `count(t)` is not the number of distinct data keys. -/
theorem c1_counterexample :
    getCount [116] (Cabinet.put [116] ⟨[107], [118]⟩
      (Cabinet.put [116] ⟨[107], [118]⟩ [])) = .ok 2 ∧
    countData [116] (Cabinet.put [116] ⟨[107], [118]⟩
      (Cabinet.put [116] ⟨[107], [118]⟩ [])) = 1 ∧
    getSize [116] (Cabinet.put [116] ⟨[107], [118]⟩
      (Cabinet.put [116] ⟨[107], [118]⟩ [])) = .ok 8 ∧
    sizeData [116] (Cabinet.put [116] ⟨[107], [118]⟩
      (Cabinet.put [116] ⟨[107], [118]⟩ [])) = 4 ∧
    getCount [116] (Cabinet.put [116] ⟨[107], [118]⟩
      (Cabinet.put [116] ⟨[107], [118]⟩ [])) ≠
      .ok (countData [116] (Cabinet.put [116] ⟨[107], [118]⟩
        (Cabinet.put [116] ⟨[107], [118]⟩ [])) : Int) := by
  decide

/-- C1, amended: after every committed transaction reachable by `put`,
`delete` and `clear` operations in which every `put` stores a key that is
absent at that moment (no overwrite), `count(t)` equals the number of
distinct keys `k` with a data key `<t,0,k>` in the store (the entries of
`countData`, whose keys are pairwise distinct by `KeysOk`), and `size(t)`
equals the sum of the stored blob lengths, whenever the true values fit a
non-negative `i64`. -/
theorem c1_stats_invariant (s : KV) (h : Reach s) (t : Bytes)
    (hc : countData t s < 2 ^ 63) (hz : sizeData t s < 2 ^ 63) :
    KeysOk s ∧ getCount t s = .ok (countData t s) ∧
      getSize t s = .ok (sizeData t s) := by
  obtain ⟨hK, _, hC⟩ := Reach_Inv s h
  refine ⟨hK, ?_, ?_⟩
  · rcases (hC t).1 with ⟨hl, hn⟩ | hl
    · unfold getCount
      rw [counterRead_none _ _ hl, hn]
      rfl
    · unfold getCount
      rw [counterRead_of_value _ _ _ hl]
      have h1 : countData t s % 2 ^ 64 % 2 ^ 64 = countData t s := by omega
      rw [h1, toInt64_small _ hc]
  · rcases (hC t).2 with ⟨hl, hn⟩ | hl
    · unfold getSize
      rw [counterRead_none _ _ hl, hn]
      rfl
    · unfold getSize
      rw [counterRead_of_value _ _ _ hl]
      have h1 : sizeData t s % 2 ^ 64 % 2 ^ 64 = sizeData t s := by omega
      rw [h1, toInt64_small _ hz]

theorem c1_witness :
    Reach (Cabinet.put [116] ⟨[107], [118]⟩ []) ∧
    countData [116] (Cabinet.put [116] ⟨[107], [118]⟩ []) < 2 ^ 63 ∧
    sizeData [116] (Cabinet.put [116] ⟨[107], [118]⟩ []) < 2 ^ 63 ∧
    (KeysOk (Cabinet.put [116] ⟨[107], [118]⟩ []) ∧
      getCount [116] (Cabinet.put [116] ⟨[107], [118]⟩ []) =
        .ok (countData [116] (Cabinet.put [116] ⟨[107], [118]⟩ [])) ∧
      getSize [116] (Cabinet.put [116] ⟨[107], [118]⟩ []) =
        .ok (sizeData [116] (Cabinet.put [116] ⟨[107], [118]⟩ []))) :=
  have hr : Reach (Cabinet.put [116] ⟨[107], [118]⟩ []) :=
    Reach.put Reach.nil (by decide) rfl
  ⟨hr, by decide, by decide,
    c1_stats_invariant _ hr [116] (by decide) (by decide)⟩

/-- C2: for every key and value, `put(Item(k,v))` followed by `get(k)` in
the same transaction returns `Some(item)` with `item.key = k` and
`item.value = v`: `put` stores `as_bytes(item)` at `<t, DATA, k>`, `get`
reads that key back and decodes it, and the bincode codec round-trips. -/
theorem c2_put_get (t k v : Bytes) (s : KV) (hk : k.length < 2 ^ 64)
    (hv : v.length < 2 ^ 64) :
    Cabinet.get t k (Cabinet.put t ⟨k, v⟩ s) = .ok (some ⟨k, v⟩) ∧
    Item.fromBytes (Item.asBytes ⟨k, v⟩) = some ⟨k, v⟩ := by
  have hwf : ItemWf ⟨k, v⟩ := ⟨hk, hv⟩
  have hfb := Item.fromBytes_asBytes ⟨k, v⟩ hwf
  refine ⟨?_, hfb⟩
  have hl : lookupKV (dataKey t k) (Cabinet.put t ⟨k, v⟩ s) =
      some (Item.asBytes ⟨k, v⟩) := by
    rw [Cabinet_put_eq,
      lookup_atomicAdd_ne _ _ _ _ (dataKey_ne_countKey t t k),
      lookup_atomicAdd_ne _ _ _ _ (dataKey_ne_sizeKey t t k)]
    exact lookupKV_set_self _ _ _
  exact Cabinet_get_some t k _ _ ⟨k, v⟩ hl hfb

theorem c2_witness :
    ([107] : Bytes).length < 2 ^ 64 ∧ ([118] : Bytes).length < 2 ^ 64 ∧
    (Cabinet.get [116] [107] (Cabinet.put [116] ⟨[107], [118]⟩ []) =
        .ok (some ⟨[107], [118]⟩) ∧
      Item.fromBytes (Item.asBytes ⟨[107], [118]⟩) = some ⟨[107], [118]⟩) :=
  ⟨by decide, by decide, c2_put_get [116] [107] [118] [] (by decide) (by decide)⟩

/-- C8: `get_count()` and `get_size()` return 0 when the counter key is
absent; when it is present they succeed exactly when the stored value is 8
bytes long, returning its little-endian signed 64-bit decoding, and any
other length fails with `InvalidCountStatsValue`. -/
theorem c8_counter_read (t : Bytes) (s : KV) :
    (lookupKV (countKey t) s = none → getCount t s = .ok 0) ∧
    (∀ v, lookupKV (countKey t) s = some v → v.length = 8 →
      getCount t s = .ok (toInt64 (natOfLE v))) ∧
    (∀ v, lookupKV (countKey t) s = some v → v.length ≠ 8 →
      getCount t s = .error .invalidCountStatsValue) ∧
    (lookupKV (sizeKey t) s = none → getSize t s = .ok 0) ∧
    (∀ v, lookupKV (sizeKey t) s = some v → v.length = 8 →
      getSize t s = .ok (toInt64 (natOfLE v))) ∧
    (∀ v, lookupKV (sizeKey t) s = some v → v.length ≠ 8 →
      getSize t s = .error .invalidCountStatsValue) := by
  refine ⟨fun h => counterRead_none _ _ h,
    fun v h h8 => counterRead_some8 _ _ v h h8,
    fun v h h8 => counterRead_bad _ _ v h h8,
    fun h => counterRead_none _ _ h,
    fun v h h8 => counterRead_some8 _ _ v h h8,
    fun v h h8 => counterRead_bad _ _ v h h8⟩

theorem c8_witness :
    lookupKV (countKey [116]) [] = none ∧ getCount [116] [] = .ok 0 ∧
    lookupKV (countKey [116]) [(countKey [116], [1, 2, 3])] = some [1, 2, 3] ∧
    ([1, 2, 3] : Bytes).length ≠ 8 ∧
    getCount [116] [(countKey [116], [1, 2, 3])] = .error .invalidCountStatsValue :=
  ⟨rfl, (c8_counter_read [116] []).1 rfl, by decide, by decide,
    (c8_counter_read [116] [(countKey [116], [1, 2, 3])]).2.2.1 [1, 2, 3]
      (by decide) (by decide)⟩

/-- C3: tenant isolation. For distinct tenants `t ≠ t'`: the packed key
sets are disjoint; no key of `t'` lies in `t`'s cleared data range; `put`,
`delete` and `clear` by `t` leave every data key and both counters of `t'`
unchanged; and `t`'s reads (`get`, `get_count`, `get_size`) are insensitive
to writes at any key of `t'`. -/
theorem c3_tenant_isolation (t t' : Bytes) (hne : t ≠ t') :
    (∀ key, tenantKey t key → tenantKey t' key → False) ∧
    (∀ key, tenantKey t' key → inRange (dataLo t) (dataHi t) key = false) ∧
    (∀ it s key, tenantKey t' key →
      lookupKV key (Cabinet.put t it s) = lookupKV key s) ∧
    (∀ kk s r s' key, Cabinet.delete t kk s = .ok (r, s') → tenantKey t' key →
      lookupKV key s' = lookupKV key s) ∧
    (∀ s key, tenantKey t' key →
      lookupKV key (Cabinet.clear t s) = lookupKV key s) ∧
    (∀ k key v s, tenantKey t' key →
      Cabinet.get t k (setKV key v s) = Cabinet.get t k s) ∧
    (∀ key v s, tenantKey t' key →
      getCount t (setKV key v s) = getCount t s ∧
      getSize t (setKV key v s) = getSize t s) := by
  have hne' : t' ≠ t := fun hh => hne hh.symm
  refine ⟨?_, ?_, ?_, ?_, ?_, ?_, ?_⟩
  · intro key h h'
    rcases h with ⟨k, hk⟩ | hk | hk <;> subst hk
    · exact tenantKey_ne_dataKey t t' k _ hne' h' rfl
    · exact tenantKey_ne_countKey t t' _ hne' h' rfl
    · exact tenantKey_ne_sizeKey t t' _ hne' h' rfl
  · exact fun key h => tenantKey_not_in_range t t' key hne' h
  · intro it s key h
    exact lookup_put_frame t it s key (tenantKey_ne_dataKey t t' _ key hne' h)
      (tenantKey_ne_countKey t t' key hne' h) (tenantKey_ne_sizeKey t t' key hne' h)
  · intro kk s r s' key hdel h
    exact lookup_delete_frame t kk s s' r hdel key
      (tenantKey_ne_dataKey t t' kk key hne' h)
      (tenantKey_ne_countKey t t' key hne' h) (tenantKey_ne_sizeKey t t' key hne' h)
  · intro s key h
    exact lookup_clear_frame t s key (tenantKey_ne_countKey t t' key hne' h)
      (tenantKey_ne_sizeKey t t' key hne' h) (tenantKey_not_in_range t t' key hne' h)
  · intro k key v s h
    exact get_set_other t k key v s (tenantKey_ne_dataKey t t' k key hne' h)
  · intro key v s h
    constructor
    · unfold getCount
      exact counterRead_set_other (countKey t) key v s
        (tenantKey_ne_countKey t t' key hne' h)
    · unfold getSize
      exact counterRead_set_other (sizeKey t) key v s
        (tenantKey_ne_sizeKey t t' key hne' h)

theorem c3_witness :
    ([116] : Bytes) ≠ [117] ∧ tenantKey [116] (countKey [116]) ∧
    (tenantKey [116] (countKey [116]) → tenantKey [117] (countKey [116]) → False) :=
  ⟨by decide, Or.inr (Or.inl rfl),
    (c3_tenant_isolation [116] [117] (by decide)).1 (countKey [116])⟩

/-- C4: `delete(k)` reads the key first. When the key is absent it returns
`None` and the resulting state is literally the input state (a no-op:
counters and all data keys unchanged). When the key is present with blob
`raw` decoding to `item`, it clears exactly that data key, leaves every
other non-counter key unchanged, decrements `count(t)` by 1 and `size(t)`
by `len(as_bytes(item))`, and returns the decoded prior item; the counter
readings carry the no-underflow side conditions of 64-bit arithmetic. -/
theorem c4_delete (t k : Bytes) (s : KV) :
    (lookupKV (dataKey t k) s = none → Cabinet.delete t k s = .ok (none, s)) ∧
    (∀ raw it c z, lookupKV (dataKey t k) s = some raw →
      Item.fromBytes raw = some it →
      getCount t s = .ok c → getSize t s = .ok z →
      -(2 ^ 63 : Int) < c → it.asBytes.length < 2 ^ 63 →
      -(2 ^ 63 : Int) < z - it.asBytes.length →
      ∃ s', Cabinet.delete t k s = .ok (some it, s') ∧
        lookupKV (dataKey t k) s' = none ∧
        (∀ key, key ≠ dataKey t k → key ≠ countKey t → key ≠ sizeKey t →
          lookupKV key s' = lookupKV key s) ∧
        getCount t s' = .ok (c - 1) ∧
        getSize t s' = .ok (z - it.asBytes.length)) := by
  constructor
  · exact fun h => Cabinet_delete_none t k s h
  · intro raw it c z hl hfb hc hz hclow hlen hzlow
    refine ⟨_, Cabinet_delete_some t k s raw it hl hfb, ?_, ?_, ?_, ?_⟩
    · rw [lookup_atomicAdd_ne _ _ _ _ (dataKey_ne_countKey t t k),
        lookup_atomicAdd_ne _ _ _ _ (dataKey_ne_sizeKey t t k),
        lookupKV_erase_self]
    · intro key h1 h2 h3
      rw [lookup_atomicAdd_ne _ _ _ _ h2, lookup_atomicAdd_ne _ _ _ _ h3,
        lookupKV_erase_ne _ _ _ h1]
    · obtain ⟨n0, hn0lt, hn0c, hn0e⟩ := counterRead_elim (countKey t) s c hc
      have hck2 : lookupKV (countKey t)
          (atomicAdd (sizeKey t)
            (toLE 8 ((2 ^ 64 - it.asBytes.length % 2 ^ 64) % 2 ^ 64))
            (eraseKV (dataKey t k) s)) = lookupKV (countKey t) s := by
        rw [lookup_atomicAdd_ne _ _ _ _ (fun hh => countKey_ne_sizeKey t t hh),
          lookupKV_erase_ne _ _ _ (fun hh => dataKey_ne_countKey t t k hh.symm)]
      have hlook := lookup_add8 (countKey t) (2 ^ 64 - 1)
        (atomicAdd (sizeKey t)
          (toLE 8 ((2 ^ 64 - it.asBytes.length % 2 ^ 64) % 2 ^ 64))
          (eraseKV (dataKey t k) s))
      rw [hck2, hn0e] at hlook
      unfold getCount
      rw [counterRead_of_value _ _ _ hlook]
      have hX : (n0 + (2 ^ 64 - 1) % 2 ^ 64) % 2 ^ 64 % 2 ^ 64 =
          (n0 + (2 ^ 64 - 1 % 2 ^ 64) % 2 ^ 64) % 2 ^ 64 := by omega
      rw [hX, toInt64_sub_general n0 1 hn0lt (by norm_num)
        (by rw [hn0c]; omega), hn0c]
      norm_num
    · obtain ⟨m0, hm0lt, hm0z, hm0e⟩ := counterRead_elim (sizeKey t) s z hz
      have hzk1 : lookupKV (sizeKey t) (eraseKV (dataKey t k) s) =
          lookupKV (sizeKey t) s := by
        rw [lookupKV_erase_ne _ _ _ (fun hh => dataKey_ne_sizeKey t t k hh.symm)]
      have hlook := lookup_add8 (sizeKey t)
        ((2 ^ 64 - it.asBytes.length % 2 ^ 64) % 2 ^ 64) (eraseKV (dataKey t k) s)
      rw [hzk1, hm0e] at hlook
      have hzk3 : lookupKV (sizeKey t)
          (atomicAdd (countKey t) (toLE 8 (2 ^ 64 - 1))
            (atomicAdd (sizeKey t)
              (toLE 8 ((2 ^ 64 - it.asBytes.length % 2 ^ 64) % 2 ^ 64))
              (eraseKV (dataKey t k) s))) =
          some (toLE 8 ((m0 + (2 ^ 64 - it.asBytes.length % 2 ^ 64) % 2 ^ 64
            % 2 ^ 64) % 2 ^ 64)) := by
        rw [lookup_atomicAdd_ne _ _ _ _ (fun hh => countKey_ne_sizeKey t t hh.symm)]
        exact hlook
      unfold getSize
      rw [counterRead_of_value _ _ _ hzk3]
      have hX : (m0 + (2 ^ 64 - it.asBytes.length % 2 ^ 64) % 2 ^ 64 % 2 ^ 64)
          % 2 ^ 64 % 2 ^ 64 =
          (m0 + (2 ^ 64 - it.asBytes.length % 2 ^ 64) % 2 ^ 64) % 2 ^ 64 := by
        omega
      rw [hX, toInt64_sub_general m0 it.asBytes.length hm0lt hlen
        (by rw [hm0z]; omega), hm0z]

theorem c4_witness :
    lookupKV (dataKey [116] [107]) (Cabinet.put [116] ⟨[107], [118]⟩ []) =
      some (Item.asBytes ⟨[107], [118]⟩) ∧
    Item.fromBytes (Item.asBytes ⟨[107], [118]⟩) = some ⟨[107], [118]⟩ ∧
    getCount [116] (Cabinet.put [116] ⟨[107], [118]⟩ []) = .ok 1 ∧
    getSize [116] (Cabinet.put [116] ⟨[107], [118]⟩ []) = .ok 4 ∧
    (∃ s', Cabinet.delete [116] [107] (Cabinet.put [116] ⟨[107], [118]⟩ []) =
        .ok (some ⟨[107], [118]⟩, s') ∧
      lookupKV (dataKey [116] [107]) s' = none ∧
      (∀ key, key ≠ dataKey [116] [107] → key ≠ countKey [116] →
        key ≠ sizeKey [116] →
        lookupKV key s' = lookupKV key (Cabinet.put [116] ⟨[107], [118]⟩ [])) ∧
      getCount [116] s' = .ok (1 - 1) ∧
      getSize [116] s' = .ok (4 - (Item.asBytes ⟨[107], [118]⟩).length)) :=
  ⟨by decide, by decide, by decide, by decide,
    (c4_delete [116] [107] (Cabinet.put [116] ⟨[107], [118]⟩ [])).2
      (Item.asBytes ⟨[107], [118]⟩) ⟨[107], [118]⟩ 1 4 (by decide) (by decide)
      (by decide) (by decide) (by decide) (by decide) (by decide)⟩

/-- C5: `clear()` by tenant `t` removes every data key `<t,0,*>` and
clears both counter keys, so a subsequent `get_count` and `get_size` both
return 0, while every data key and both counters of any other tenant are
left unchanged. -/
theorem c5_clear (t : Bytes) (s : KV) :
    (∀ k, lookupKV (dataKey t k) (Cabinet.clear t s) = none) ∧
    getCount t (Cabinet.clear t s) = .ok 0 ∧
    getSize t (Cabinet.clear t s) = .ok 0 ∧
    (∀ t', t' ≠ t → ∀ key, tenantKey t' key →
      lookupKV key (Cabinet.clear t s) = lookupKV key s) := by
  refine ⟨?_, ?_, ?_, ?_⟩
  · intro k
    rw [Cabinet_clear_eq,
      lookupKV_erase_ne _ _ _ (fun hh => dataKey_ne_countKey t t k hh),
      lookupKV_erase_ne _ _ _ (fun hh => dataKey_ne_sizeKey t t k hh),
      lookupKV_clearRange, dataKey_in_range]
    simp
  · unfold getCount
    apply counterRead_none
    rw [Cabinet_clear_eq]
    exact lookupKV_erase_self _ _
  · unfold getSize
    apply counterRead_none
    rw [Cabinet_clear_eq,
      lookupKV_erase_ne _ _ _ (fun hh => countKey_ne_sizeKey t t hh.symm)]
    exact lookupKV_erase_self _ _
  · intro t' hne key hk
    exact lookup_clear_frame t s key (tenantKey_ne_countKey t t' key hne hk)
      (tenantKey_ne_sizeKey t t' key hne hk)
      (tenantKey_not_in_range t t' key hne hk)

theorem c5_witness :
    (([117] : Bytes) ≠ [116]) ∧ tenantKey [117] (countKey [117]) ∧
    lookupKV (countKey [117])
        (Cabinet.clear [116] (Cabinet.put [117] ⟨[1], [2]⟩ [])) =
      lookupKV (countKey [117]) (Cabinet.put [117] ⟨[1], [2]⟩ []) :=
  ⟨by decide, Or.inr (Or.inl rfl),
    (c5_clear [116] (Cabinet.put [117] ⟨[1], [2]⟩ [])).2.2.2 [117] (by decide)
      (countKey [117]) (Or.inr (Or.inl rfl))⟩

/-- C6: the authentication gate. On an unauthenticated connection every
data command (`put`, `get`, `delete`, `clear`, `stats`) is answered with
`AUTHREQUIRED: perform auth <tenant> first\n` and touches neither the
connection state nor the store; an `auth` with a non-empty tenant sets the
tenant, marks the connection authenticated and replies `OK\n`; an `auth`
with an empty tenant replies `ERROR Authentication failed\n` and leaves the
connection state unchanged; and a whole buffer without a successful `auth`
only ever produces the gate replies. -/
theorem c6_auth_gate (s : KV) :
    (∀ c : Cmd, c.isData = true →
      stepCmd ⟨none, false⟩ s c = ([.authRequired], .ok (⟨none, false⟩, s))) ∧
    Resp.authRequired.wire = "AUTHREQUIRED: perform auth <tenant> first\n" ∧
    (∀ t : Bytes, t ≠ [] → ∀ st : ConnState,
      stepCmd st s (.auth t) = ([.ok], .ok (⟨some t, true⟩, s))) ∧
    Resp.ok.wire = "OK\n" ∧
    (∀ st : ConnState, stepCmd st s (.auth []) =
      ([.error ("Authentication failed")], .ok (st, s))) ∧
    (Resp.error ("Authentication failed")).wire =
      "ERROR Authentication failed\n" ∧
    (∀ cs : List Cmd, (∀ t, Cmd.auth t ∈ cs → t = []) →
      runCmds ⟨none, false⟩ s cs =
        (cs.map gateReply, .ok (⟨none, false⟩, s))) := by
  refine ⟨?_, rfl, ?_, rfl, ?_, rfl, ?_⟩
  · intro c hc
    cases c with
    | auth t => simp [Cmd.isData] at hc
    | quit => simp [Cmd.isData] at hc
    | unknown => simp [Cmd.isData] at hc
    | put k v => rfl
    | get k => rfl
    | delete k => rfl
    | clear => rfl
    | stats => rfl
  · intro t ht st
    show (if t ≠ [] then (([Resp.ok], .ok (⟨some t, true⟩, s)) :
        List Resp × Except CabErr (ConnState × KV))
      else ([.error ("Authentication failed")], .ok (st, s))) = _
    rw [if_pos ht]
  · intro st
    rfl
  · exact fun cs h => run_gate s cs h

theorem c6_witness :
    (Cmd.get [107]).isData = true ∧
    stepCmd ⟨none, false⟩ [] (Cmd.get [107]) =
      ([.authRequired], .ok (⟨none, false⟩, [])) :=
  ⟨by decide, (c6_auth_gate []).1 (Cmd.get [107]) (by decide)⟩

/-- C7, counterexample: the claim says a data command failing with a
non-retryable error is answered `ERROR <message>\n` and the connection
continues, but `handle_connection` propagates every such error with `?`,
so the connection terminates with NO response written for the failing
command and the remaining commands unprocessed. Concretely: with value
`[0xFF]` stored (not valid UTF-8), the buffer `get "k"` then `stats`
produces no responses at all and aborts with `Utf8Error`. -/
theorem c7_counterexample :
    Cabinet.get [116] [107] (Cabinet.put [116] ⟨[107], [255]⟩ []) =
      .ok (some ⟨[107], [255]⟩) ∧
    utf8Decode [255] = none ∧
    runCmds ⟨some [116], true⟩ (Cabinet.put [116] ⟨[107], [255]⟩ [])
        [Cmd.get [107], Cmd.stats] =
      ([], .error .utf8Error) :=
  ⟨by decide, by decide, by decide⟩

/-- C7, amended: on an authenticated connection, a data command whose
execution fails with a non-retryable error produces NO response at all
(in particular no `ERROR <message>\n` line) and stops the processing of
every subsequent command in the buffer: the error propagates out of the
handler and the connection is closed. -/
theorem c7_error_propagation (s : KV) (t : Bytes) (c : Cmd) (e : CabErr)
    (cs : List Cmd) (hc : c.isData = true) (hex : execData t c s = .error e) :
    runCmds ⟨some t, true⟩ s (c :: cs) = ([], .error e) := by
  have hstep : stepCmd ⟨some t, true⟩ s c = ([], .error e) := by
    cases c with
    | auth tt => simp [Cmd.isData] at hc
    | quit => simp [Cmd.isData] at hc
    | unknown => simp [Cmd.isData] at hc
    | put k v => simp [stepCmd, hex]
    | get k => simp [stepCmd, hex]
    | delete k => simp [stepCmd, hex]
    | clear => simp [stepCmd, hex]
    | stats => simp [stepCmd, hex]
  simp only [runCmds]
  rw [hstep]

theorem c7_witness :
    (Cmd.get [107]).isData = true ∧
    execData [116] (Cmd.get [107]) (Cabinet.put [116] ⟨[107], [255]⟩ []) =
      .error .utf8Error ∧
    runCmds ⟨some [116], true⟩ (Cabinet.put [116] ⟨[107], [255]⟩ [])
        (Cmd.get [107] :: [Cmd.stats]) =
      ([], .error .utf8Error) :=
  ⟨by decide, by decide,
    c7_error_propagation (Cabinet.put [116] ⟨[107], [255]⟩ []) [116]
      (Cmd.get [107]) .utf8Error [Cmd.stats] (by decide) (by decide)⟩

/-- C9, counterexample: the claim says an unmatched line is consumed up to
the next LF as ONE `Unknown`, but `Unknown::accept` (pinned by the crate's
own `test_command_iterator`) consumes only up to and including the FIRST
ASCII whitespace; so the single line `floob blah\n` parses as TWO
`Unknown` commands and elicits two `ERROR Unknown command\n` responses,
not one. -/
theorem c9_counterexample :
    parseCommands [102, 108, 111, 111, 98, 0x20, 98, 108, 97, 104, 0x0A] =
      [Cmd.unknown, Cmd.unknown] ∧
    (runCmds ⟨none, false⟩ []
        (parseCommands
          [102, 108, 111, 111, 98, 0x20, 98, 108, 97, 104, 0x0A])).1 =
      [.error ("Unknown command"), .error ("Unknown command")] :=
  ⟨by decide, by decide⟩

/-- C9, amended: when no keyword matches, `Unknown` consumes the bytes up
to and including the first ASCII whitespace (everything, when there is
none), so an unmatched line yields one `Unknown` per whitespace-separated
word, each answered with `ERROR Unknown command\n`; `floob blah\n` yields
exactly two. -/
theorem c9_unknown_stops_at_whitespace (w : Bytes)
    (hn : ∀ b ∈ w, isWsB b = false) :
    (∀ (c : Byte) (rest : Bytes), isWsB c = true →
      unknownSplit (w ++ c :: rest) = rest) ∧
    unknownSplit w = [] ∧
    parseCommands [102, 108, 111, 111, 98, 0x20, 98, 108, 97, 104, 0x0A] =
      [Cmd.unknown, Cmd.unknown] ∧
    (Resp.error ("Unknown command")).wire = "ERROR Unknown command\n" :=
  ⟨unknownSplit_append_ws w hn, unknownSplit_all w hn, by decide, rfl⟩

set_option maxRecDepth 4000 in
theorem c9_witness :
    (∀ b ∈ ([102] : Bytes), isWsB b = false) ∧
    unknownSplit ([102] ++ (0x20 : Byte) :: [98]) = [98] :=
  ⟨by decide,
    (c9_unknown_stops_at_whitespace [102] (by decide)).1 0x20 [98] (by decide)⟩

/-- C10: an `auth "<bytes>"` whose quoted bytes are not valid UTF-8 is a
parse error rather than an `Auth` command (Rust's `str::from_utf8` failure
aborts `Auth::accept`), and conversely every successfully parsed `Auth`
carries a tenant whose bytes decode as UTF-8 — even though the `Data`
grammar itself admits arbitrary non-quote bytes. -/
theorem c10_auth_utf8 :
    (∀ bs : Bytes, utf8Decode bs = none → (∀ b ∈ bs, b.val ≠ 0x22) →
      tryAuth ([0x61, 0x75, 0x74, 0x68, 0x20, 0x22] ++ bs ++ [0x22]) =
        none) ∧
    (∀ l c rest, tryAuth l = some (c, rest) →
      ∃ tb cs, c = Cmd.auth tb ∧ utf8Decode tb = some cs) := by
  constructor
  · intro bs hu hq
    have hl : ([0x61, 0x75, 0x74, 0x68, 0x20, 0x22] : Bytes) ++ bs ++ [0x22] =
        0x61 :: 0x75 :: 0x74 :: 0x68 :: 0x20 :: 0x22 :: (bs ++ [0x22]) := by
      simp
    rw [hl]
    unfold tryAuth
    have hci : ciPrefix kwAuth
        ((0x61 : Byte) :: 0x75 :: 0x74 :: 0x68 :: 0x20 :: 0x22 ::
          (bs ++ [0x22])) = true := rfl
    rw [if_pos hci]
    have hdrop : ((0x61 : Byte) :: 0x75 :: 0x74 :: 0x68 :: 0x20 :: 0x22 ::
        (bs ++ [0x22])).drop 4 = (0x20 : Byte) :: 0x22 :: (bs ++ [0x22]) :=
      rfl
    rw [hdrop]
    have hws : ws1 ((0x20 : Byte) :: 0x22 :: (bs ++ [0x22])) =
        some ((0x22 : Byte) :: (bs ++ [0x22])) := rfl
    rw [hws]
    simp only [Option.some_bind]
    have hda : dataAccept ((0x22 : Byte) :: (bs ++ [0x22])) =
        some (bs, []) := by
      unfold dataAccept
      rw [dropToQuote, if_pos (show ((0x22 : Byte)).val = 0x22 from rfl)]
      have hb : bs ++ [(0x22 : Byte)] = bs ++ (0x22 : Byte) :: [] := rfl
      simp only [Option.some_bind]
      rw [hb, takeToQuote_append bs [] hq]
    rw [hda]
    simp only [Option.some_bind]
    rw [hu]
  · exact fun l c rest h => tryAuth_some_valid l c rest h

set_option maxRecDepth 4000 in
theorem c10_witness :
    utf8Decode [255] = none ∧ (∀ b ∈ ([255] : Bytes), b.val ≠ 0x22) ∧
    tryAuth ([0x61, 0x75, 0x74, 0x68, 0x20, 0x22] ++ [255] ++ [0x22]) =
      none :=
  ⟨by decide, by decide, c10_auth_utf8.1 [255] (by decide) (by decide)⟩

end Cab
